import Mathlib

/-!
Verification development for the `parmenides` dependency-graph core.

The Rust sources are shallowly embedded:
* `src/parmenides-lib/src/project.rs`   — `ProjectId`, `Project`
* `src/parmenides-lib/src/workspace.rs` — `Workspace` and its operations
* `src/parmenides-lib/src/declarations.rs` — `WorkspaceDeclaration` and resolution
* `src/parmenides-lib/src/errors.rs`    — the error enums

Machine conventions: `ProjectId` is a `Nat` (the Rust newtype over `usize`;
ids stay far below `usize::MAX` since they index a `Vec`).  Filesystem paths
are `String`s (only equality of paths matters to the core).  The Rust
`HashMap<PathBuf, ProjectId>` is modelled as an association list with
insert-replaces-first-match semantics, matching `HashMap::insert` returning
the previous value.  Rust methods taking `&mut self` and returning
`Result<T, E>` become functions returning `Except E T × Workspace`:
the returned workspace is the (possibly partially) mutated state, which the
Rust caller retains even when the call fails.
-/

set_option linter.unusedVariables false

namespace Parmenides

/-- Error enum from `errors.rs` (`AddProjectError`); the misspelling
`DepedencyNotFound` is the source's. -/
inductive AddProjectError where
  | PathAlreadyAdded : Nat → AddProjectError
  | DepedencyNotFound : Nat → AddProjectError
deriving DecidableEq, Repr

/-- Error enum from `errors.rs` (`MarkProjectAsAffectedError`). -/
inductive MarkProjectAsAffectedError where
  | ProjectNotFound : Nat → MarkProjectAsAffectedError
deriving DecidableEq, Repr

/-- Error enum from `errors.rs` (`BuildWorkspaceError`). -/
inductive BuildWorkspaceError where
  | ErrorWhileAddingProject : String → AddProjectError → BuildWorkspaceError
  | ProjectDeclarationNotFound : String → BuildWorkspaceError
  | CyclicDependencyFound : List String → BuildWorkspaceError
deriving DecidableEq, Repr

/-- `Project` from `project.rs`: path, name, optional dependency ids,
dependent ids (populated by `Workspace.add_project`), affected flag.
`Project::new` corresponds to `⟨path, name, deps, [], false⟩`. -/
structure Project where
  path : String
  name : String
  dependencies : Option (List Nat)
  dependents : List Nat
  affected : Bool
deriving DecidableEq, Repr

/-- `Project::add_dependent` — push onto the dependents vector. -/
def Project.add_dependent (p : Project) (id : Nat) : Project :=
  { p with dependents := p.dependents ++ [id] }

/-- `Workspace` from `workspace.rs`: the arena of projects plus the
path → id hash map (modelled as an association list). -/
structure Workspace where
  arena : List Project
  hash : List (String × Nat)
deriving DecidableEq, Repr

/-- First-match lookup in the association list modelling `HashMap::get`. -/
def hashLookup (l : List (String × Nat)) (k : String) : Option Nat :=
  match l with
  | [] => none
  | (k1, v) :: rest => if k1 = k then some v else hashLookup rest k

/-- `HashMap::insert`: replace the binding of `k` if present, else append.
The previous value (what Rust's `insert` returns) is `hashLookup l k`. -/
def hashInsert (l : List (String × Nat)) (k : String) (v : Nat) : List (String × Nat) :=
  match l with
  | [] => [(k, v)]
  | (k1, v1) :: rest => if k1 = k then (k, v) :: rest else (k1, v1) :: hashInsert rest k v

/-- `Workspace::new`. -/
def Workspace.new : Workspace := { arena := [], hash := [] }

/-- The dependent-registration loop inside `Workspace::add_project`:
for each dependency id, fetch the slot (or fail with the first dangling id,
keeping the mutations made so far) and append the new project's id to its
dependents. -/
def registerDependents (arena : List Project) (id : Nat) :
    List Nat → Option Nat × List Project
  | [] => (none, arena)
  | d :: rest =>
    match arena[d]? with
    | none => (some d, arena)
    | some p => registerDependents (arena.set d (p.add_dependent id)) id rest

/-- `Workspace::add_project`.  Mirrors the source exactly: the id is the
current arena length; the hash insert happens first (so a `PathAlreadyAdded`
failure still leaves the clobbered index entry behind); dependent
registration aborts at the first dangling dependency id, leaving earlier
back-edges in place; only on full success is the project pushed. -/
def Workspace.add_project (ws : Workspace) (project : Project) :
    Except AddProjectError Nat × Workspace :=
  let id := ws.arena.length
  let old := hashLookup ws.hash project.path
  let hash1 := hashInsert ws.hash project.path id
  match old with
  | some existing_id =>
    (.error (.PathAlreadyAdded existing_id), { arena := ws.arena, hash := hash1 })
  | none =>
    match project.dependencies with
    | none => (.ok id, { arena := ws.arena ++ [project], hash := hash1 })
    | some deps =>
      match registerDependents ws.arena id deps with
      | (some missing, arena1) =>
        (.error (.DepedencyNotFound missing), { arena := arena1, hash := hash1 })
      | (none, arena1) =>
        (.ok id, { arena := arena1 ++ [project], hash := hash1 })

/-- `Workspace::get_id_by_path`. -/
def Workspace.get_id_by_path (ws : Workspace) (path : String) : Option Nat :=
  hashLookup ws.hash path

/-- `Workspace::len`. -/
def Workspace.len (ws : Workspace) : Nat := ws.arena.length

/-- `Workspace::is_empty`. -/
def Workspace.is_empty (ws : Workspace) : Bool := ws.arena.isEmpty

/-- `Workspace::get_project`. -/
def Workspace.get_project (ws : Workspace) (id : Nat) : Option Project :=
  ws.arena[id]?

/-- `Workspace::get_project_by_path`. -/
def Workspace.get_project_by_path (ws : Workspace) (path : String) : Option Project :=
  (ws.get_id_by_path path).bind ws.get_project

/-! ### The affected-marking worklist loop

Rust's loop pops from the end of a `Vec` and `extend`s it with the popped
project's dependents.  We model the stack with its top at the head of a
list, so `extend`ing with `dependents` pushes them in order, leaving the
last dependent on top: the new stack is `dependents.reverse ++ rest`.

The loop is given step fuel so it stays a plain structural recursion; the
sufficiency theorem (claim C6) shows the bound `markBound` always suffices,
so the fallback value in `Workspace.mark_project_as_affected` is never
reached. -/

/-- One unit of weight for every not-yet-affected project, plus its
dependents (the elements it could still push); an upper bound on the
remaining loop iterations besides the current stack. -/
def unaffectedWeight (arena : List Project) : Nat :=
  (arena.map (fun p => if p.affected then 0 else 1 + p.dependents.length)).sum

/-- Step-indexed run of the `mark_project_as_affected` worklist loop.
`none` means the fuel ran out. -/
def markRun : Nat → Workspace → List Nat →
    Option (Except MarkProjectAsAffectedError Unit × Workspace)
  | 0, _, _ => none
  | _ + 1, ws, [] => some (.ok (), ws)
  | fuel + 1, ws, current_id :: rest =>
    match ws.arena[current_id]? with
    | none => some (.error (.ProjectNotFound current_id), ws)
    | some p =>
      if p.affected then
        markRun fuel ws rest
      else
        markRun fuel
          { arena := ws.arena.set current_id { p with affected := true }, hash := ws.hash }
          (p.dependents.reverse ++ rest)

/-- Fuel that provably suffices for `markRun` (see `markRun_isSome_of_bound`). -/
def markBound (ws : Workspace) (stack : List Nat) : Nat :=
  unaffectedWeight ws.arena + stack.length + 1

/-- `Workspace::mark_project_as_affected`.  The `getD` fallback is dead
code: `markRun` at fuel `markBound` always returns `some` (claim C6). -/
def Workspace.mark_project_as_affected (ws : Workspace) (id : Nat) :
    Except MarkProjectAsAffectedError Unit × Workspace :=
  (markRun (markBound ws [id]) ws [id]).getD (.ok (), ws)

/-- A sequence of `add_project` calls, failing as a whole if any call
fails; returns the ids issued in order.  Used to state claim C9. -/
def addAll (ws : Workspace) : List Project → Option (List Nat × Workspace)
  | [] => some ([], ws)
  | p :: rest =>
    match ws.add_project p with
    | (.ok id, ws1) =>
      match addAll ws1 rest with
      | some (ids, ws2) => some (id :: ids, ws2)
      | none => none
    | (.error _, _) => none

/-! ### Predicates used to state the marking claims -/

/-- Whether the store already has an id for `path`. -/
def pathInWs (ws : Workspace) (path : String) : Bool :=
  (ws.get_id_by_path path).isSome

/-- The affected flag of slot `i` (false for an out-of-range index). -/
def affectedAt (arena : List Project) (i : Nat) : Bool :=
  match arena[i]? with
  | some p => p.affected
  | none => false

/-- Every dependent id stored anywhere in the arena is a valid index.
This holds for every workspace built through the public API, since
`add_project` only records the freshly issued id as a dependent. -/
def validDependents (arena : List Project) : Prop :=
  ∀ p ∈ arena, ∀ d ∈ p.dependents, d < arena.length

/-- The affected set is closed under dependents edges.  This holds for
every workspace reachable through the public API: projects start
unaffected and `mark_project_as_affected` marks whole dependent-closures. -/
def affectedClosed (arena : List Project) : Prop :=
  ∀ p ∈ arena, p.affected = true → ∀ d ∈ p.dependents, affectedAt arena d = true

/-- `Reaches arena x y`: `y` is `x` itself or a transitive dependent of
`x` (reachability over dependents edges). -/
inductive Reaches (arena : List Project) : Nat → Nat → Prop where
  | refl (x : Nat) : Reaches arena x x
  | step {x y z : Nat} {p : Project} : arena[x]? = some p → y ∈ p.dependents →
      Reaches arena y z → Reaches arena x z

/-- Reachability over dependents edges through not-yet-affected projects
only — the set of nodes the marking loop actually visits and marks. -/
inductive ReachAvoid (arena : List Project) : Nat → Nat → Prop where
  | refl {x : Nat} {p : Project} : arena[x]? = some p → p.affected = false →
      ReachAvoid arena x x
  | step {x y z : Nat} {p : Project} : arena[x]? = some p → p.affected = false →
      y ∈ p.dependents → ReachAvoid arena y z → ReachAvoid arena x z

/-! ### The declaration resolver (`declarations.rs`)

`WorkspaceDeclaration.build_workspace` iterates over the keys of a
`HashMap<PathBuf, ProjectDeclaration>`; the map is modelled as an
association list, fixing one concrete iteration order (Rust's hash-map
iteration order is arbitrary, so every list order is one possible
execution).  `add_project_to_workspace` is recursive in Rust; the
embedding adds step fuel to keep it structural, and
`build_workspace` runs it with the provably sufficient bound `fuelBound`
(the fallback value is dead code by `buildFold_isSome`).

Note the source never pops `stack`: entries pushed for completed
side-branches stay in it for the rest of the enclosing top-level
resolution (the cycle check is still sound because a completed path is in
the workspace, so the early return fires before the stack test). -/

/-- `ProjectDeclaration` from `declarations.rs`. -/
structure ProjectDeclaration where
  name : String
  dependencies : Option (List String)
deriving DecidableEq, Repr

/-- `WorkspaceDeclaration` from `declarations.rs` (the `projects` map). -/
structure WorkspaceDeclaration where
  projects : List (String × ProjectDeclaration)
deriving DecidableEq, Repr

/-- First-match lookup in the declaration map (`self.projects.get(path)`). -/
def declLookup : List (String × ProjectDeclaration) → String → Option ProjectDeclaration
  | [], _ => none
  | (k, d) :: rest, path => if k = path then some d else declLookup rest path

/-- Lookup of a declaration by path. -/
def lookupDecl (wd : WorkspaceDeclaration) (path : String) : Option ProjectDeclaration :=
  declLookup wd.projects path

/-- The declared paths, in iteration order (`self.projects.keys()`). -/
def declKeys (wd : WorkspaceDeclaration) : List String :=
  wd.projects.map Prod.fst

/-- A declaration's dependency paths (`None` meaning no dependencies). -/
def depsOfDecl (d : ProjectDeclaration) : List String :=
  d.dependencies.getD []

/-- The dependency-resolution loop inside `add_project_to_workspace`,
abstracted over the recursive call `f`: resolve each dependency path in
order, threading the workspace and the (never-popped) stack, and collect
the ids; abort on the first failure. -/
def resolveDepsWith
    (f : String → Workspace → List String →
      Option (Except BuildWorkspaceError (Nat × Workspace × List String))) :
    List String → Workspace → List String →
      Option (Except BuildWorkspaceError (List Nat × Workspace × List String))
  | [], ws, stack => some (.ok ([], ws, stack))
  | d :: rest, ws, stack =>
    match f d ws stack with
    | none => none
    | some (.error e) => some (.error e)
    | some (.ok (id, ws1, stack1)) =>
      match resolveDepsWith f rest ws1 stack1 with
      | none => none
      | some (.error e) => some (.error e)
      | some (.ok (ids, ws2, stack2)) => some (.ok (id :: ids, ws2, stack2))

/-- `WorkspaceDeclaration::add_project_to_workspace`, step-fuelled.
Mirrors the source: early return when the path is already resolved; cycle
check against the stack, reporting the stack contents plus the repeated
path appended once more; push the path (never popped); look up the
declaration; resolve dependencies recursively; add the project, wrapping
add errors. -/
def add_project_to_workspace :
    Nat → WorkspaceDeclaration → String → Workspace → List String →
      Option (Except BuildWorkspaceError (Nat × Workspace × List String))
  | 0, _, _, _, _ => none
  | fuel + 1, wd, path, ws, stack =>
    match ws.get_id_by_path path with
    | some id => some (.ok (id, ws, stack))
    | none =>
      if path ∈ stack then
        some (.error (.CyclicDependencyFound (stack ++ [path])))
      else
        match lookupDecl wd path with
        | none => some (.error (.ProjectDeclarationNotFound path))
        | some decl =>
          match decl.dependencies with
          | none =>
            match ws.add_project ⟨path, decl.name, none, [], false⟩ with
            | (.ok id, ws1) => some (.ok (id, ws1, stack ++ [path]))
            | (.error e, _) => some (.error (.ErrorWhileAddingProject path e))
          | some deps =>
            match resolveDepsWith (fun d w st => add_project_to_workspace fuel wd d w st)
                deps ws (stack ++ [path]) with
            | none => none
            | some (.error e) => some (.error e)
            | some (.ok (ids, ws1, stack1)) =>
              match ws1.add_project ⟨path, decl.name, some ids, [], false⟩ with
              | (.ok id, ws2) => some (.ok (id, ws2, stack1))
              | (.error e, _) => some (.error (.ErrorWhileAddingProject path e))

/-- The loop of `build_workspace`: resolve each declared key with a fresh
stack, propagating the first error. -/
def buildFold (wd : WorkspaceDeclaration) (fuel : Nat) :
    List String → Workspace → Option (Except BuildWorkspaceError Workspace)
  | [], ws => some (.ok ws)
  | k :: rest, ws =>
    match add_project_to_workspace fuel wd k ws [] with
    | none => none
    | some (.error e) => some (.error e)
    | some (.ok (_, ws1, _)) => buildFold wd fuel rest ws1

/-- Fuel that provably suffices for a whole `build_workspace` run. -/
def fuelBound (wd : WorkspaceDeclaration) : Nat :=
  wd.projects.length + 1

/-- `WorkspaceDeclaration::build_workspace`.  The `getD` fallback is dead
code: at fuel `fuelBound` the fold always returns `some`
(`buildFold_isSome`). -/
def WorkspaceDeclaration.build_workspace (wd : WorkspaceDeclaration) :
    Except BuildWorkspaceError Workspace :=
  (buildFold wd (fuelBound wd) (declKeys wd) Workspace.new).getD
    (.error (.ProjectDeclarationNotFound ""))

/-- The number of declared keys not yet on the resolution stack — the
quantity that shrinks every time the resolver pushes a new path, used to
justify `fuelBound`. -/
def declRemaining (wd : WorkspaceDeclaration) (stack : List String) : Nat :=
  ((declKeys wd).filter (fun k => !(stack.contains k))).length

/-- The path-reference edge of the declaration map: `x` declares a
dependency on `y`. -/
def RefEdge (wd : WorkspaceDeclaration) (x y : String) : Prop :=
  ∃ d, lookupDecl wd x = some d ∧ y ∈ depsOfDecl d

/-- Every path referenced as a dependency is itself declared. -/
def ClosedDecls (wd : WorkspaceDeclaration) : Prop :=
  ∀ pr ∈ wd.projects, ∀ y ∈ depsOfDecl pr.2, y ∈ declKeys wd

/-- The path-reference graph has no cycle. -/
def AcyclicDecls (wd : WorkspaceDeclaration) : Prop :=
  ∀ x, ¬ Relation.TransGen (RefEdge wd) x x

/-- Structural invariant of a workspace, established by `add_project` and
maintained throughout resolution: hash and arena are inverse indexes of
one another, dependency ids point strictly below the owner (so dependency
edges always point at older projects), dependent ids are in range, and
dependents are exactly the transpose of dependencies. -/
structure WSInv (ws : Workspace) : Prop where
  hashToArena : ∀ (k : String) (i : Nat), hashLookup ws.hash k = some i →
    ∃ p, ws.arena[i]? = some p ∧ p.path = k
  arenaToHash : ∀ (i : Nat) (p : Project), ws.arena[i]? = some p →
    hashLookup ws.hash p.path = some i
  depsLT : ∀ (i : Nat) (p : Project), ws.arena[i]? = some p →
    ∀ d ∈ p.dependencies.getD [], d < i
  dependentsValid : ∀ (i : Nat) (p : Project), ws.arena[i]? = some p →
    ∀ d ∈ p.dependents, d < ws.arena.length
  transpose : ∀ (i j : Nat) (p q : Project), ws.arena[i]? = some p →
    ws.arena[j]? = some q → (j ∈ p.dependents ↔ i ∈ q.dependencies.getD [])

/-- The workspace faithfully maps declared reference edges: whenever a
resolved path's declaration references `y`, then `y` is resolved with a
strictly smaller id. -/
def RefFaithful (wd : WorkspaceDeclaration) (ws : Workspace) : Prop :=
  ∀ (x : String) (ix : Nat) (d : ProjectDeclaration),
    ws.get_id_by_path x = some ix → lookupDecl wd x = some d →
    ∀ y ∈ depsOfDecl d, ∃ iy, ws.get_id_by_path y = some iy ∧ iy < ix

/-- Concrete two-project store used by witnesses: `b` (id 1) depends on
`a` (id 0), so `a.dependents = [1]`; nothing affected yet. -/
def wsTwo : Workspace :=
  { arena := [⟨"a", "A", none, [1], false⟩, ⟨"b", "B", some [0], [], false⟩],
    hash := [("a", 0), ("b", 1)] }

/-- Postconditions of a successful `add_project_to_workspace` call
(resolving `path` in state `ws, stack` to id `id` with final state
`ws1, stack1`), used to thread invariants through the resolver. -/
structure ResolveOk (wd : WorkspaceDeclaration) (path : String) (ws : Workspace)
    (stack : List String) (id : Nat) (ws1 : Workspace) (stack1 : List String) : Prop where
  stackExt : ∃ ext, stack1 = stack ++ ext
  stackResolved : ∀ x ∈ stack1, x ∈ stack ∨ pathInWs ws1 x = true
  wsMono : ∀ (k : String) (i : Nat), ws.get_id_by_path k = some i →
    ws1.get_id_by_path k = some i
  newPaths : ∀ x : String, pathInWs ws1 x = true →
    pathInWs ws x = true ∨ (x ∉ stack ∧ x ∈ declKeys wd)
  lenMono : ws.arena.length ≤ ws1.arena.length
  pathRes : ws1.get_id_by_path path = some id
  inv : WSInv ws → WSInv ws1
  faithful : WSInv ws → RefFaithful wd ws → RefFaithful wd ws1
  fieldsKept : ∀ (i : Nat) (q : Project), ws.arena[i]? = some q →
    ∃ ext2, ws1.arena[i]? = some { q with dependents := q.dependents ++ ext2 }

/-- Postconditions of a successful run of the dependency-resolution loop. -/
structure ResolveDepsOk (wd : WorkspaceDeclaration) (deps : List String) (ws : Workspace)
    (stack : List String) (ids : List Nat) (ws1 : Workspace) (stack1 : List String) : Prop where
  stackExt : ∃ ext, stack1 = stack ++ ext
  stackResolved : ∀ x ∈ stack1, x ∈ stack ∨ pathInWs ws1 x = true
  wsMono : ∀ (k : String) (i : Nat), ws.get_id_by_path k = some i →
    ws1.get_id_by_path k = some i
  newPaths : ∀ x : String, pathInWs ws1 x = true →
    pathInWs ws x = true ∨ (x ∉ stack ∧ x ∈ declKeys wd)
  lenMono : ws.arena.length ≤ ws1.arena.length
  inv : WSInv ws → WSInv ws1
  faithful : WSInv ws → RefFaithful wd ws → RefFaithful wd ws1
  fieldsKept : ∀ (i : Nat) (q : Project), ws.arena[i]? = some q →
    ∃ ext2, ws1.arena[i]? = some { q with dependents := q.dependents ++ ext2 }
  idsRes : List.Forall₂ (fun d i => ws1.get_id_by_path d = some i) deps ids

/-- Concrete two-declaration map used by witnesses: `b` depends on `a`. -/
def wdTwo : WorkspaceDeclaration :=
  ⟨[("a", ⟨"A", none⟩), ("b", ⟨"B", some ["a"]⟩)]⟩

/-- Concrete acyclic map whose only declaration references an undeclared
path — used to refute claim C4 as stated. -/
def wdDangling : WorkspaceDeclaration :=
  ⟨[("a", ⟨"A", some ["b"]⟩)]⟩

/-- Concrete map containing a self-cycle at `c`, but whose first key `a`
references an undeclared path `m` — used to refute claim C3 as stated. -/
def wdPre : WorkspaceDeclaration :=
  ⟨[("a", ⟨"A", some ["m"]⟩), ("c", ⟨"C", some ["c"]⟩)]⟩

/-- Concrete two-declaration cycle (the source's own unit-test scenario):
`core` and `dependent` depend on each other. -/
def wdCyc : WorkspaceDeclaration :=
  ⟨[("core", ⟨"core", some ["dependent"]⟩), ("dependent", ⟨"dependent", some ["core"]⟩)]⟩

/-! ## Lemmas about the hash model and `add_project` -/

theorem hashLookup_insert_self (l : List (String × Nat)) (k : String) (v : Nat) :
    hashLookup (hashInsert l k v) k = some v := by
  induction l with
  | nil => simp [hashInsert, hashLookup]
  | cons hd tl ih =>
    obtain ⟨k1, v1⟩ := hd
    by_cases h : k1 = k
    · simp [hashInsert, hashLookup, h]
    · simp [hashInsert, hashLookup, h, ih]

theorem hashLookup_insert_ne (l : List (String × Nat)) (k k1 : String) (v : Nat)
    (h : k1 ≠ k) : hashLookup (hashInsert l k v) k1 = hashLookup l k1 := by
  induction l with
  | nil =>
    simp only [hashInsert, hashLookup]
    rw [if_neg (fun hc => h hc.symm)]
  | cons hd tl ih =>
    obtain ⟨k2, v2⟩ := hd
    by_cases h2 : k2 = k
    · subst h2
      simp only [hashInsert, if_pos rfl, hashLookup]
      rw [if_neg (fun hc => h hc.symm), if_neg (fun hc => h hc.symm)]
    · simp [hashInsert, hashLookup, h2, ih]

/-- Success case of the dependent-registration loop: every dependency id is
a valid arena index, the arena keeps its length, and each slot's dependents
list gains one copy of `id` per occurrence of that slot among `deps`. -/
theorem registerDependents_ok (deps : List Nat) (arena arena1 : List Project) (id : Nat)
    (h : registerDependents arena id deps = (none, arena1)) :
    arena1.length = arena.length ∧
    (∀ d ∈ deps, d < arena.length) ∧
    (∀ (i : Nat) (q : Project), arena[i]? = some q →
      arena1[i]? = some { q with dependents := q.dependents ++ List.replicate (deps.count i) id }) := by
  induction deps generalizing arena with
  | nil =>
    simp only [registerDependents, Prod.mk.injEq] at h
    obtain ⟨-, h2⟩ := h
    subst h2
    refine ⟨rfl, by simp, ?_⟩
    intro i q hq
    simpa using hq
  | cons d rest ih =>
    simp only [registerDependents] at h
    cases harr : arena[d]? with
    | none => rw [harr] at h; exact absurd h (by simp)
    | some p =>
      rw [harr] at h
      have hd : d < arena.length := by
        by_contra hc
        push_neg at hc
        rw [List.getElem?_eq_none hc] at harr
        exact Option.noConfusion harr
      obtain ⟨hlen, hvalid, hchar⟩ := ih _ h
      rw [List.length_set] at hlen
      refine ⟨hlen, ?_, ?_⟩
      · intro e he
        rcases List.mem_cons.mp he with rfl | he
        · exact hd
        · have := hvalid e he
          rwa [List.length_set] at this
      · intro i q hq
        by_cases hi : i = d
        · subst hi
          rw [harr] at hq
          injection hq with hq
          subst hq
          have hset : (arena.set i (p.add_dependent id))[i]? = some (p.add_dependent id) :=
            List.getElem?_set_self (by simpa using hd)
          have hstep := hchar i _ hset
          rw [hstep]
          have hcount : (i :: rest).count i = rest.count i + 1 := by
            simp [List.count_cons]
          rw [hcount]
          simp [Project.add_dependent, List.replicate_succ, List.append_assoc]
        · have hset : (arena.set d (p.add_dependent id))[i]? = some q := by
            rw [List.getElem?_set_ne (fun hc => hi hc.symm)]
            exact hq
          have hstep := hchar i _ hset
          rw [hstep]
          have hcount : (d :: rest).count i = rest.count i := by
            simp [List.count_cons, hi]
          rw [hcount]

/-- Failure case of the dependent-registration loop: registration stops at
the first dangling id, and the back-edges recorded for the earlier, valid
dependencies are left in place. -/
theorem registerDependents_err (pre : List Nat) (bad : Nat) (post : List Nat)
    (arena : List Project) (id : Nat)
    (hpre : ∀ d ∈ pre, d < arena.length) (hbad : arena.length ≤ bad) :
    ∃ arena1,
      registerDependents arena id (pre ++ bad :: post) = (some bad, arena1) ∧
      arena1.length = arena.length ∧
      (∀ (i : Nat) (q : Project), arena[i]? = some q →
        arena1[i]? = some { q with dependents := q.dependents ++ List.replicate (pre.count i) id }) := by
  induction pre generalizing arena with
  | nil =>
    refine ⟨arena, ?_, rfl, fun i q hq => by simpa using hq⟩
    simp only [List.nil_append, registerDependents]
    rw [List.getElem?_eq_none hbad]
  | cons d rest ih =>
    have hd : d < arena.length := hpre d (by simp)
    obtain ⟨p, hp⟩ : ∃ p, arena[d]? = some p := ⟨arena[d], List.getElem?_eq_getElem hd⟩
    have hrest : ∀ e ∈ rest, e < (arena.set d (p.add_dependent id)).length := by
      intro e he
      rw [List.length_set]
      exact hpre e (by simp [he])
    have hbad1 : (arena.set d (p.add_dependent id)).length ≤ bad := by
      rw [List.length_set]; exact hbad
    obtain ⟨arena1, heq, hlen, hchar⟩ := ih (arena.set d (p.add_dependent id)) hrest hbad1
    refine ⟨arena1, ?_, by rw [hlen, List.length_set], ?_⟩
    · simp only [List.cons_append, registerDependents, hp]
      exact heq
    · intro i q hq
      by_cases hi : i = d
      · subst hi
        rw [hp] at hq
        injection hq with hq
        subst hq
        have hset : (arena.set i (p.add_dependent id))[i]? = some (p.add_dependent id) :=
          List.getElem?_set_self (by simpa using hd)
        have hstep := hchar i _ hset
        rw [hstep]
        have hcount : (i :: rest).count i = rest.count i + 1 := by
          simp [List.count_cons]
        rw [hcount]
        simp [Project.add_dependent, List.replicate_succ, List.append_assoc]
      · have hset : (arena.set d (p.add_dependent id))[i]? = some q := by
          rw [List.getElem?_set_ne (fun hc => hi hc.symm)]
          exact hq
        have hstep := hchar i _ hset
        rw [hstep]
        have hcount : (d :: rest).count i = rest.count i := by
          simp [List.count_cons, hi]
        rw [hcount]

/-- Characterization of a successful `add_project`: the issued id is the
arena length at call time, the path was fresh, the hash gains the new
binding, the project is pushed unchanged at slot `id`, every declared
dependency is a valid index, and every pre-existing slot keeps its fields
except for the appended back-edges. -/
theorem add_project_ok (ws ws1 : Workspace) (p : Project) (id : Nat)
    (h : ws.add_project p = (.ok id, ws1)) :
    id = ws.arena.length ∧
    hashLookup ws.hash p.path = none ∧
    ws1.hash = hashInsert ws.hash p.path ws.arena.length ∧
    ws1.arena.length = ws.arena.length + 1 ∧
    ws1.arena[id]? = some p ∧
    (∀ d ∈ p.dependencies.getD [], d < ws.arena.length) ∧
    (∀ (i : Nat) (q : Project), ws.arena[i]? = some q →
      ws1.arena[i]? = some { q with dependents :=
        q.dependents ++ List.replicate ((p.dependencies.getD []).count i) ws.arena.length }) := by
  dsimp only [Workspace.add_project] at h
  cases hold : hashLookup ws.hash p.path with
  | some e => rw [hold] at h; exact absurd h (by simp)
  | none =>
    rw [hold] at h
    dsimp only at h
    cases hdeps : p.dependencies with
    | none =>
      rw [hdeps] at h
      dsimp only at h
      simp only [Prod.mk.injEq, Except.ok.injEq] at h
      obtain ⟨hid, hws⟩ := h
      subst hid
      subst hws
      refine ⟨rfl, rfl, rfl, by simp, by simp, by simp [hdeps], ?_⟩
      intro i q hq
      have hi : i < ws.arena.length := by
        by_contra hc
        push_neg at hc
        rw [List.getElem?_eq_none hc] at hq
        exact Option.noConfusion hq
      simp only [hdeps, Option.getD_none, List.count_nil, List.replicate_zero,
        List.append_nil]
      rw [List.getElem?_append, if_pos hi]
      exact hq
    | some deps =>
      rw [hdeps] at h
      dsimp only at h
      cases hreg : registerDependents ws.arena ws.arena.length deps with
      | mk first arena1 =>
        rw [hreg] at h
        cases first with
        | some missing => dsimp only at h; exact absurd h (by simp)
        | none =>
          dsimp only at h
          simp only [Prod.mk.injEq, Except.ok.injEq] at h
          obtain ⟨hid, hws⟩ := h
          subst hid
          subst hws
          obtain ⟨hlen, hvalid, hchar⟩ := registerDependents_ok deps ws.arena arena1 _ hreg
          refine ⟨rfl, rfl, rfl, by simp [hlen], ?_, by simpa [hdeps] using hvalid, ?_⟩
          · rw [← hlen]
            simp
          · intro i q hq
            have hi : i < arena1.length := by
              rw [hlen]
              by_contra hc
              push_neg at hc
              rw [List.getElem?_eq_none hc] at hq
              exact Option.noConfusion hq
            rw [List.getElem?_append, if_pos hi]
            simpa [hdeps] using hchar i q hq

/-- `add_project` on an already-present path always fails with
`PathAlreadyAdded` of the previously stored id, leaving the arena untouched
but overwriting the index binding with the never-issued id. -/
theorem add_project_path_already (ws : Workspace) (p : Project) (j : Nat)
    (h : hashLookup ws.hash p.path = some j) :
    ws.add_project p =
      (.error (.PathAlreadyAdded j),
        { arena := ws.arena, hash := hashInsert ws.hash p.path ws.arena.length }) := by
  dsimp only [Workspace.add_project]
  rw [h]


/-- `add_project` with a fresh path whose dependency list has a first
dangling id `bad` (all earlier ids valid): the call fails with
`DepedencyNotFound bad`, no project is pushed, and the back-edges already
recorded on the earlier valid dependencies stay in place. -/
theorem add_project_dep_missing (ws : Workspace) (p : Project)
    (pre : List Nat) (bad : Nat) (post : List Nat)
    (h0 : hashLookup ws.hash p.path = none)
    (hdeps : p.dependencies = some (pre ++ bad :: post))
    (hpre : ∀ d ∈ pre, d < ws.arena.length)
    (hbad : ws.arena.length ≤ bad) :
    ∃ arena1,
      ws.add_project p =
        (.error (.DepedencyNotFound bad),
          { arena := arena1, hash := hashInsert ws.hash p.path ws.arena.length }) ∧
      arena1.length = ws.arena.length ∧
      (∀ (i : Nat) (q : Project), ws.arena[i]? = some q →
        arena1[i]? = some { q with dependents :=
          q.dependents ++ List.replicate (pre.count i) ws.arena.length }) := by
  obtain ⟨arena1, herr, hlen, hchar⟩ :=
    registerDependents_err pre bad post ws.arena ws.arena.length hpre hbad
  refine ⟨arena1, ?_, hlen, hchar⟩
  dsimp only [Workspace.add_project]
  rw [h0]
  dsimp only
  rw [hdeps]
  dsimp only
  rw [herr]

/-- C1 (code bug, concrete evaluation): after a project is added at path
`a`, a second `add_project` at the same path fails with `PathAlreadyAdded 0`
(the original id) and leaves the arena — hence the project count —
unchanged; but, contrary to the claim that no state is mutated, the failed
call rewrites the path→id index entry for `a` from `0` to the never-issued
id `1`. -/
theorem c1_duplicate_add_mutates_index :
    Workspace.new.add_project ⟨"a", "one", none, [], false⟩ =
      (.ok 0, { arena := [⟨"a", "one", none, [], false⟩], hash := [("a", 0)] }) ∧
    (({ arena := [⟨"a", "one", none, [], false⟩], hash := [("a", 0)] } :
        Workspace).add_project ⟨"a", "two", none, [], false⟩).1 =
      .error (.PathAlreadyAdded 0) ∧
    (({ arena := [⟨"a", "one", none, [], false⟩], hash := [("a", 0)] } :
        Workspace).add_project ⟨"a", "two", none, [], false⟩).2.arena =
      [⟨"a", "one", none, [], false⟩] ∧
    (({ arena := [⟨"a", "one", none, [], false⟩], hash := [("a", 0)] } :
        Workspace).add_project ⟨"a", "two", none, [], false⟩).2.hash = [("a", 1)] ∧
    [("a", 1)] ≠ [("a", 0)] := by
  refine ⟨rfl, rfl, rfl, rfl, ?_⟩
  decide

/-- C10: once `add_project` has failed with `PathAlreadyAdded` on a path
already in the store, path lookups on that path are broken: the index now
returns the never-issued id `ws.arena.length` (outside the arena, so
`get_project` of it is `none`), hence `get_project_by_path` is `none`, even
though the arena — and with it the originally added project — is unchanged. -/
theorem c10_failed_add_breaks_path_lookup (ws : Workspace) (p : Project) (j : Nat)
    (hj : ws.get_id_by_path p.path = some j) (hjlt : j < ws.arena.length) :
    ∃ ws2, ws.add_project p = (.error (.PathAlreadyAdded j), ws2) ∧
      ws2.arena = ws.arena ∧
      ws2.get_id_by_path p.path = some ws.arena.length ∧
      ws2.get_project ws.arena.length = none ∧
      ws2.get_project_by_path p.path = none ∧
      (ws2.get_project j).isSome = true := by
  have hcall := add_project_path_already ws p j hj
  refine ⟨_, hcall, rfl, ?_, ?_, ?_, ?_⟩
  · exact hashLookup_insert_self ws.hash p.path ws.arena.length
  · exact List.getElem?_eq_none (Nat.le_refl _)
  · dsimp only [Workspace.get_project_by_path]
    rw [show (({ arena := ws.arena, hash := hashInsert ws.hash p.path ws.arena.length } :
        Workspace).get_id_by_path p.path) = some ws.arena.length from
      hashLookup_insert_self ws.hash p.path ws.arena.length]
    dsimp only [Option.bind]
    exact List.getElem?_eq_none (Nat.le_refl _)
  · dsimp only [Workspace.get_project]
    rw [List.getElem?_eq_getElem hjlt]
    rfl

/-- Witness for C10 at a concrete store with one project at path `a`. -/
theorem c10_failed_add_breaks_path_lookup_witness :
    ∃ ws2, ({ arena := [⟨"a", "one", none, [], false⟩], hash := [("a", 0)] } :
        Workspace).add_project ⟨"a", "two", none, [], false⟩ =
        (.error (.PathAlreadyAdded 0), ws2) ∧
      ws2.arena = [⟨"a", "one", none, [], false⟩] ∧
      ws2.get_id_by_path "a" = some 1 ∧
      ws2.get_project 1 = none ∧
      ws2.get_project_by_path "a" = none ∧
      (ws2.get_project 0).isSome = true :=
  c10_failed_add_breaks_path_lookup
    { arena := [⟨"a", "one", none, [], false⟩], hash := [("a", 0)] }
    ⟨"a", "two", none, [], false⟩ 0 (by decide) (by decide)

/-- C8: with a fresh path and a dependency list whose first dangling id is
`bad`, `add_project` fails with `DepedencyNotFound bad`; the new project is
not pushed (the arena length is unchanged, and the would-be id denotes no
slot), while each valid dependency processed before the failure keeps the
appended back-edge holding the never-issued id. -/
theorem c8_dangling_dependency_keeps_partial_edges (ws : Workspace) (p : Project)
    (pre : List Nat) (bad : Nat) (post : List Nat)
    (h0 : ws.get_id_by_path p.path = none)
    (hdeps : p.dependencies = some (pre ++ bad :: post))
    (hpre : ∀ d ∈ pre, d < ws.arena.length)
    (hbad : ws.arena.length ≤ bad) :
    ∃ ws2, ws.add_project p = (.error (.DepedencyNotFound bad), ws2) ∧
      ws2.arena.length = ws.arena.length ∧
      ws2.get_project ws.arena.length = none ∧
      (∀ (i : Nat) (q : Project), ws.arena[i]? = some q →
        ws2.arena[i]? = some { q with dependents :=
          q.dependents ++ List.replicate (pre.count i) ws.arena.length }) := by
  obtain ⟨arena1, hcall, hlen, hchar⟩ :=
    add_project_dep_missing ws p pre bad post h0 hdeps hpre hbad
  refine ⟨_, hcall, hlen, ?_, hchar⟩
  dsimp only [Workspace.get_project]
  exact List.getElem?_eq_none (by simp [hlen])

/-- Witness for C8: store with one project `a`; adding `c` with
dependencies `[0, 7]` fails at the dangling id `7`, and slot `0` keeps the
back-edge `1` (the never-issued id). -/
theorem c8_dangling_dependency_keeps_partial_edges_witness :
    ∃ ws2, ({ arena := [⟨"a", "one", none, [], false⟩], hash := [("a", 0)] } :
        Workspace).add_project ⟨"c", "C", some [0, 7], [], false⟩ =
        (.error (.DepedencyNotFound 7), ws2) ∧
      ws2.arena.length = 1 ∧
      ws2.get_project 1 = none ∧
      (∀ (i : Nat) (q : Project),
        ([⟨"a", "one", none, [], false⟩] : List Project)[i]? = some q →
        ws2.arena[i]? = some { q with dependents :=
          q.dependents ++ List.replicate (List.count i [0]) 1 }) :=
  c8_dangling_dependency_keeps_partial_edges
    { arena := [⟨"a", "one", none, [], false⟩], hash := [("a", 0)] }
    ⟨"c", "C", some [0, 7], [], false⟩ [0] 7 []
    (by decide) (by decide) (by decide) (by decide)

/-- Later successful adds never remove or overwrite an existing slot: they
only append to its dependents list. -/
theorem addAll_preserves (ps : List Project) (ws wsf : Workspace) (ids : List Nat)
    (h : addAll ws ps = some (ids, wsf)) :
    ∀ (i : Nat) (q : Project), ws.arena[i]? = some q →
      ∃ ext, wsf.arena[i]? = some { q with dependents := q.dependents ++ ext } := by
  induction ps generalizing ws ids with
  | nil =>
    simp only [addAll, Option.some.injEq, Prod.mk.injEq] at h
    obtain ⟨-, h2⟩ := h
    subst h2
    exact fun i q hq => ⟨[], by simpa using hq⟩
  | cons p rest ih =>
    simp only [addAll] at h
    cases hadd : ws.add_project p with
    | mk r ws1 =>
      rw [hadd] at h
      cases r with
      | error e => exact absurd h (by simp)
      | ok id =>
        dsimp only at h
        cases haa : addAll ws1 rest with
        | none => rw [haa] at h; exact absurd h (by simp)
        | some pr =>
          obtain ⟨ids2, ws2⟩ := pr
          rw [haa] at h
          simp only [Option.some.injEq, Prod.mk.injEq] at h
          obtain ⟨-, h2⟩ := h
          subst h2
          intro i q hq
          obtain ⟨-, -, -, -, -, -, hchar⟩ := add_project_ok ws ws1 p id hadd
          obtain ⟨ext2, hext2⟩ := ih ws1 ids2 haa i _ (hchar i q hq)
          exact ⟨List.replicate ((p.dependencies.getD []).count i) ws.arena.length ++ ext2,
            by simpa [List.append_assoc] using hext2⟩

/-- Full characterization of a successful `addAll` run: the ids issued are
consecutive indices starting at the current arena length, and each added
project sits at its id with all fields intact except dependents, which may
have grown. -/
theorem addAll_spec (ps : List Project) (ws wsf : Workspace) (ids : List Nat)
    (h : addAll ws ps = some (ids, wsf)) :
    ids = List.range' ws.arena.length ps.length ∧
    wsf.arena.length = ws.arena.length + ps.length ∧
    (∀ (j : Nat) (hj : j < ps.length), ∃ q ext,
      wsf.arena[ws.arena.length + j]? = some q ∧
      q.path = (ps.get ⟨j, hj⟩).path ∧ q.name = (ps.get ⟨j, hj⟩).name ∧
      q.dependencies = (ps.get ⟨j, hj⟩).dependencies ∧
      q.dependents = (ps.get ⟨j, hj⟩).dependents ++ ext) := by
  induction ps generalizing ws ids with
  | nil =>
    simp only [addAll, Option.some.injEq, Prod.mk.injEq] at h
    obtain ⟨h1, h2⟩ := h
    subst h2
    exact ⟨h1.symm ▸ rfl, by simp, fun j hj => absurd hj (by simp)⟩
  | cons p rest ih =>
    simp only [addAll] at h
    cases hadd : ws.add_project p with
    | mk r ws1 =>
      rw [hadd] at h
      cases r with
      | error e => exact absurd h (by simp)
      | ok id =>
        dsimp only at h
        cases haa : addAll ws1 rest with
        | none => rw [haa] at h; exact absurd h (by simp)
        | some pr =>
          obtain ⟨ids2, ws2⟩ := pr
          rw [haa] at h
          simp only [Option.some.injEq, Prod.mk.injEq] at h
          obtain ⟨h1, h2⟩ := h
          subst h2
          obtain ⟨hid, -, -, hlen1, hslot, -, -⟩ := add_project_ok ws ws1 p id hadd
          subst hid
          obtain ⟨hids2, hlenf, hrest⟩ := ih ws1 ids2 haa
          refine ⟨?_, ?_, ?_⟩
          · rw [← h1, hids2, hlen1]
            rfl
          · simp only [List.length_cons]
            omega
          · intro j hj
            cases j with
            | zero =>
              obtain ⟨ext, hext⟩ :=
                addAll_preserves rest ws1 ws2 ids2 haa ws.arena.length p hslot
              exact ⟨{ p with dependents := p.dependents ++ ext }, ext,
                by simpa using hext, rfl, rfl, rfl, rfl⟩
            | succ j0 =>
              have hj0 : j0 < rest.length := by simpa using hj
              obtain ⟨q, ext, hq, hpath, hname, hdeps2, hdept⟩ := hrest j0 hj0
              refine ⟨q, ext, ?_, by simpa using hpath, by simpa using hname,
                by simpa using hdeps2, by simpa using hdept⟩
              rw [show ws.arena.length + (j0 + 1) = ws1.arena.length + j0 by omega]
              exact hq

/-- C9: on a fresh workspace, a run of successful `add_project` calls
issues the ids 0, 1, 2, … in order (each id is the arena index at
insertion time, and ids are never reused), and `get_project` at each
returned id yields the project added by that call — same path, name and
dependencies; only its dependents list may since have grown. -/
theorem c9_sequential_ids (ps : List Project) (ids : List Nat) (wsf : Workspace)
    (h : addAll Workspace.new ps = some (ids, wsf)) :
    ids = List.range ps.length ∧
    wsf.len = ps.length ∧
    (∀ (j : Nat) (hj : j < ps.length),
      ids[j]? = some j ∧
      ∃ q ext, wsf.get_project j = some q ∧
        q.path = (ps.get ⟨j, hj⟩).path ∧ q.name = (ps.get ⟨j, hj⟩).name ∧
        q.dependencies = (ps.get ⟨j, hj⟩).dependencies ∧
        q.dependents = (ps.get ⟨j, hj⟩).dependents ++ ext) := by
  obtain ⟨h1, h2, h3⟩ := addAll_spec ps Workspace.new wsf ids h
  have harena : (Workspace.new).arena.length = 0 := rfl
  rw [harena] at h1 h2 h3
  have hr : ids = List.range ps.length := by
    rw [h1, List.range_eq_range']
  refine ⟨hr, by simpa [Workspace.len] using h2, ?_⟩
  intro j hj
  refine ⟨?_, ?_⟩
  · rw [hr]
    simp [List.getElem?_range hj]
  · obtain ⟨q, ext, hq, hrest⟩ := h3 j hj
    exact ⟨q, ext, by simpa [Workspace.get_project] using hq, hrest⟩

/-- Witness for C9: two concrete adds on a fresh workspace issue ids
`[0, 1]` and the stored projects match the inputs. -/
theorem c9_sequential_ids_witness :
    [0, 1] = List.range ([(⟨"a", "A", none, [], false⟩ : Project),
        ⟨"b", "B", some [0], [], false⟩].length) ∧
    ({ arena := [⟨"a", "A", none, [1], false⟩, ⟨"b", "B", some [0], [], false⟩],
        hash := [("a", 0), ("b", 1)] } : Workspace).len =
      [(⟨"a", "A", none, [], false⟩ : Project), ⟨"b", "B", some [0], [], false⟩].length ∧
    (∀ (j : Nat)
      (hj : j < [(⟨"a", "A", none, [], false⟩ : Project),
        ⟨"b", "B", some [0], [], false⟩].length),
      ([0, 1] : List Nat)[j]? = some j ∧
      ∃ q ext,
        ({ arena := [⟨"a", "A", none, [1], false⟩, ⟨"b", "B", some [0], [], false⟩],
            hash := [("a", 0), ("b", 1)] } : Workspace).get_project j = some q ∧
        q.path = ([(⟨"a", "A", none, [], false⟩ : Project),
          ⟨"b", "B", some [0], [], false⟩].get ⟨j, hj⟩).path ∧
        q.name = ([(⟨"a", "A", none, [], false⟩ : Project),
          ⟨"b", "B", some [0], [], false⟩].get ⟨j, hj⟩).name ∧
        q.dependencies = ([(⟨"a", "A", none, [], false⟩ : Project),
          ⟨"b", "B", some [0], [], false⟩].get ⟨j, hj⟩).dependencies ∧
        q.dependents = ([(⟨"a", "A", none, [], false⟩ : Project),
          ⟨"b", "B", some [0], [], false⟩].get ⟨j, hj⟩).dependents ++ ext) :=
  c9_sequential_ids
    [⟨"a", "A", none, [], false⟩, ⟨"b", "B", some [0], [], false⟩]
    [0, 1]
    { arena := [⟨"a", "A", none, [1], false⟩, ⟨"b", "B", some [0], [], false⟩],
      hash := [("a", 0), ("b", 1)] }
    (by rfl)

/-! ## Lemmas about the marking loop -/

/-- Marking one previously unaffected slot lowers the weight by exactly
one plus its dependents count. -/
theorem unaffectedWeight_set (arena : List Project) (c : Nat) (p : Project)
    (hc : arena[c]? = some p) (hp : p.affected = false) :
    unaffectedWeight (arena.set c { p with affected := true }) + (1 + p.dependents.length) =
      unaffectedWeight arena := by
  induction arena generalizing c with
  | nil => simp at hc
  | cons a rest ih =>
    cases c with
    | zero =>
      simp only [List.getElem?_cons_zero, Option.some.injEq] at hc
      subst hc
      simp [unaffectedWeight, hp]
      omega
    | succ c0 =>
      simp only [List.getElem?_cons_succ] at hc
      have hrec := ih c0 hc
      simp only [List.set_cons_succ, unaffectedWeight, List.map_cons, List.sum_cons] at hrec ⊢
      omega

/-- Fuel sufficiency: the marking loop halts within
`unaffectedWeight + stack length` steps — the visited check plus the
finite project count bound the traversal, with no acyclicity assumption. -/
theorem markRun_isSome_of_bound (fuel : Nat) :
    ∀ (ws : Workspace) (stack : List Nat),
      unaffectedWeight ws.arena + stack.length < fuel →
      (markRun fuel ws stack).isSome = true := by
  induction fuel with
  | zero => intro ws stack h; omega
  | succ n ih =>
    intro ws stack h
    cases stack with
    | nil => simp [markRun]
    | cons c rest =>
      simp only [markRun]
      cases hc : ws.arena[c]? with
      | none => simp
      | some p =>
        dsimp only
        by_cases hp : p.affected
        · rw [if_pos hp]
          apply ih
          simp only [List.length_cons] at h
          omega
        · rw [if_neg hp]
          apply ih
          have hw := unaffectedWeight_set ws.arena c p hc (by simpa using hp)
          simp only [List.length_cons, List.length_append, List.length_reverse] at h ⊢
          omega

/-- The marking loop never unmarks anything and touches no other field:
whatever the outcome (success or a mid-traversal `ProjectNotFound`), the
hash and the arena length are unchanged, and every slot keeps its fields
with the affected flag only ever raised. -/
theorem markRun_monotone (fuel : Nat) :
    ∀ (ws : Workspace) (stack : List Nat) (r : Except MarkProjectAsAffectedError Unit)
      (ws1 : Workspace), markRun fuel ws stack = some (r, ws1) →
      ws1.hash = ws.hash ∧ ws1.arena.length = ws.arena.length ∧
      (∀ (i : Nat) (q : Project), ws.arena[i]? = some q →
        ∃ b, ws1.arena[i]? = some { q with affected := b } ∧ (q.affected = true → b = true)) := by
  induction fuel with
  | zero => intro ws stack r ws1 h; exact absurd h (by simp [markRun])
  | succ n ih =>
    intro ws stack r ws1 h
    cases stack with
    | nil =>
      simp only [markRun, Option.some.injEq, Prod.mk.injEq] at h
      obtain ⟨-, h2⟩ := h
      subst h2
      exact ⟨rfl, rfl, fun i q hq => ⟨q.affected, hq, fun hb => hb⟩⟩
    | cons c rest =>
      simp only [markRun] at h
      cases hc : ws.arena[c]? with
      | none =>
        rw [hc] at h
        dsimp only at h
        simp only [Option.some.injEq, Prod.mk.injEq] at h
        obtain ⟨-, h2⟩ := h
        subst h2
        exact ⟨rfl, rfl, fun i q hq => ⟨q.affected, hq, fun hb => hb⟩⟩
      | some p =>
        rw [hc] at h
        dsimp only at h
        by_cases hp : p.affected
        · rw [if_pos hp] at h
          exact ih ws rest r ws1 h
        · rw [if_neg hp] at h
          obtain ⟨h1, h2, h3⟩ := ih _ _ r ws1 h
          have hclen : c < ws.arena.length := by
            by_contra hcl
            push_neg at hcl
            rw [List.getElem?_eq_none hcl] at hc
            exact Option.noConfusion hc
          refine ⟨h1, by simpa using h2, ?_⟩
          intro i q hq
          by_cases hi : i = c
          · subst hi
            rw [hc] at hq
            injection hq with hq
            subst hq
            have hmid : (ws.arena.set i { p with affected := true })[i]? =
                some { p with affected := true } :=
              List.getElem?_set_self (by simpa using hclen)
            obtain ⟨b, hb, himp⟩ := h3 i _ hmid
            exact ⟨b, hb, fun _ => himp rfl⟩
          · have hmid : (ws.arena.set c { p with affected := true })[i]? = some q := by
              rw [List.getElem?_set_ne (fun hcc => hi hcc.symm)]
              exact hq
            exact h3 i q hmid

/-- After a run whose stack starts with a valid id `c`, slot `c` is
affected: the head is popped first and either was already affected or is
marked before anything else can fail. -/
theorem markRun_head_affected (fuel : Nat) (ws : Workspace) (c : Nat) (rest : List Nat)
    (r : Except MarkProjectAsAffectedError Unit) (ws1 : Workspace)
    (h : markRun fuel ws (c :: rest) = some (r, ws1)) (hc : c < ws.arena.length) :
    affectedAt ws1.arena c = true := by
  cases fuel with
  | zero => exact absurd h (by simp [markRun])
  | succ n =>
    simp only [markRun] at h
    obtain ⟨p, hp⟩ : ∃ p, ws.arena[c]? = some p := ⟨_, List.getElem?_eq_getElem hc⟩
    rw [hp] at h
    dsimp only at h
    by_cases haff : p.affected
    · rw [if_pos haff] at h
      obtain ⟨-, -, h3⟩ := markRun_monotone n ws rest r ws1 h
      obtain ⟨b, hb, himp⟩ := h3 c p hp
      simp [affectedAt, hb, himp haff]
    · rw [if_neg haff] at h
      obtain ⟨-, -, h3⟩ := markRun_monotone n _ _ r ws1 h
      have hmid : (ws.arena.set c { p with affected := true })[c]? =
          some { p with affected := true } :=
        List.getElem?_set_self (by simpa using hc)
      obtain ⟨b, hb, himp⟩ := h3 c _ hmid
      simp [affectedAt, hb, himp rfl]

/-- C6: for every workspace state — in particular with no acyclicity
assumption on the dependents graph — and every id, the marking worklist
run halts within the bound `markBound` (visited check plus finitely many
projects), and `mark_project_as_affected` is exactly that halted run's
result. -/
theorem c6_mark_terminates (ws : Workspace) (id : Nat) :
    ∃ r, markRun (markBound ws [id]) ws [id] = some r ∧
      ws.mark_project_as_affected id = r := by
  have h := markRun_isSome_of_bound (markBound ws [id]) ws [id]
    (by simp [markBound])
  rw [Option.isSome_iff_exists] at h
  obtain ⟨r, hr⟩ := h
  refine ⟨r, hr, ?_⟩
  simp [Workspace.mark_project_as_affected, hr]

/-- Marking an out-of-range id fails immediately and leaves the workspace
untouched. -/
theorem mark_invalid (ws : Workspace) (id : Nat) (h : ws.arena.length ≤ id) :
    ws.mark_project_as_affected id = (.error (.ProjectNotFound id), ws) := by
  dsimp only [Workspace.mark_project_as_affected]
  have hb : markBound ws [id] = unaffectedWeight ws.arena + 1 + 1 := by
    simp [markBound]
  rw [hb]
  simp only [markRun, List.getElem?_eq_none h]
  rfl

/-- Marking an id whose project is already affected is a no-op returning
`Ok`. -/
theorem mark_already_affected (ws : Workspace) (id : Nat) (p : Project)
    (hp : ws.arena[id]? = some p) (haff : p.affected = true) :
    ws.mark_project_as_affected id = (.ok (), ws) := by
  dsimp only [Workspace.mark_project_as_affected]
  have hb : markBound ws [id] = unaffectedWeight ws.arena + 1 + 1 := by
    simp [markBound]
  rw [hb]
  simp only [markRun, hp]
  rw [if_pos haff]
  rfl

/-- C7: `mark_project_as_affected` is idempotent on the workspace state:
for every workspace and every id, a second call with the same id leaves
the state (all affected flags and all other fields) exactly as after one
call. -/
theorem c7_mark_idempotent (ws : Workspace) (id : Nat) :
    ((ws.mark_project_as_affected id).2.mark_project_as_affected id).2 =
      (ws.mark_project_as_affected id).2 := by
  cases hp : ws.arena[id]? with
  | none =>
    have h : ws.arena.length ≤ id := by
      by_contra hc
      push_neg at hc
      rw [List.getElem?_eq_getElem hc] at hp
      exact Option.noConfusion hp
    rw [mark_invalid ws id h, mark_invalid ws id h]
  | some p =>
    have hv : id < ws.arena.length := by
      by_contra hc
      push_neg at hc
      rw [List.getElem?_eq_none hc] at hp
      exact Option.noConfusion hp
    by_cases haff : p.affected
    · rw [mark_already_affected ws id p hp haff, mark_already_affected ws id p hp haff]
    · have hsome := markRun_isSome_of_bound (markBound ws [id]) ws [id]
        (by simp [markBound])
      rw [Option.isSome_iff_exists] at hsome
      obtain ⟨⟨r, ws1⟩, hr⟩ := hsome
      have hmark : ws.mark_project_as_affected id = (r, ws1) := by
        simp [Workspace.mark_project_as_affected, hr]
      have haft : affectedAt ws1.arena id = true :=
        markRun_head_affected (markBound ws [id]) ws id [] r ws1 hr hv
      obtain ⟨q, hq, hqaff⟩ : ∃ q, ws1.arena[id]? = some q ∧ q.affected = true := by
        dsimp only [affectedAt] at haft
        cases hq1 : ws1.arena[id]? with
        | none => rw [hq1] at haft; exact absurd haft (by simp)
        | some q => rw [hq1] at haft; exact ⟨q, rfl, haft⟩
      rw [hmark]
      rw [mark_already_affected ws1 id q hq hqaff]

/-- A `ReachAvoid` start node is valid and unaffected. -/
theorem ReachAvoid.start_unaffected {arena : List Project} {x y : Nat}
    (h : ReachAvoid arena x y) :
    ∃ p, arena[x]? = some p ∧ p.affected = false := by
  cases h with
  | refl hx hf => exact ⟨_, hx, hf⟩
  | step hx hf hy hrec => exact ⟨_, hx, hf⟩

/-- Avoiding paths of the marked arena are avoiding paths of the original
arena (marking only shrinks the unaffected set; dependents are untouched). -/
theorem ReachAvoid_of_set {arena : List Project} {c : Nat} {p : Project}
    (hc : arena[c]? = some p) :
    ∀ {s i : Nat},
      ReachAvoid (arena.set c { p with affected := true }) s i → ReachAvoid arena s i := by
  intro s i h
  induction h with
  | refl hx hf =>
    rename_i x p1
    by_cases hxc : x = c
    · subst hxc
      rw [List.getElem?_set_self (by
        by_contra hcl
        push_neg at hcl
        rw [List.getElem?_eq_none hcl] at hc
        exact Option.noConfusion hc)] at hx
      injection hx with hx
      rw [← hx] at hf
      exact absurd hf (by simp)
    · rw [List.getElem?_set_ne (fun hcc => hxc hcc.symm)] at hx
      exact ReachAvoid.refl hx hf
  | step hx hf hy hrec ih =>
    rename_i x y1 z p1
    by_cases hxc : x = c
    · subst hxc
      rw [List.getElem?_set_self (by
        by_contra hcl
        push_neg at hcl
        rw [List.getElem?_eq_none hcl] at hc
        exact Option.noConfusion hc)] at hx
      injection hx with hx
      rw [← hx] at hf
      exact absurd hf (by simp)
    · rw [List.getElem?_set_ne (fun hcc => hxc hcc.symm)] at hx
      exact ReachAvoid.step hx hf hy ih

/-- Decomposition of an avoiding path after marking `c` (assumed valid and
unaffected): the target is already affected in the marked arena, or the
path avoids `c` entirely, or it passes through `c` and so restarts from
one of `c`'s dependents. -/
theorem ReachAvoid_set_cases {arena : List Project} {c : Nat} {p : Project}
    (hc : arena[c]? = some p) (hcf : p.affected = false) :
    ∀ {s i : Nat}, ReachAvoid arena s i →
      affectedAt (arena.set c { p with affected := true }) i = true ∨
      ReachAvoid (arena.set c { p with affected := true }) s i ∨
      ∃ d ∈ p.dependents, ReachAvoid (arena.set c { p with affected := true }) d i := by
  have hclen : c < arena.length := by
    by_contra hcl
    push_neg at hcl
    rw [List.getElem?_eq_none hcl] at hc
    exact Option.noConfusion hc
  intro s i h
  induction h with
  | refl hx hf =>
    rename_i x p1
    by_cases hxc : x = c
    · subst hxc
      left
      dsimp only [affectedAt]
      rw [List.getElem?_set_self (by simpa using hclen)]
    · right; left
      exact ReachAvoid.refl (by rw [List.getElem?_set_ne (fun hcc => hxc hcc.symm)]; exact hx) hf
  | step hx hf hy hrec ih =>
    rename_i x y1 z p1
    rcases ih with hi | hi | hi
    · exact Or.inl hi
    · by_cases hxc : x = c
      · subst hxc
        rw [hc] at hx
        injection hx with hx
        subst hx
        exact Or.inr (Or.inr ⟨y1, hy, hi⟩)
      · exact Or.inr (Or.inl (ReachAvoid.step
          (by rw [List.getElem?_set_ne (fun hcc => hxc hcc.symm)]; exact hx) hf hy hi))
    · exact Or.inr (Or.inr hi)

/-- Full characterization of a successful marking run with enough fuel,
valid stack ids and valid dependents: it returns `Ok`, keeps the hash, and
raises the affected flag on exactly the projects avoid-reachable from the
stack, touching nothing else. -/
theorem markRun_ok_spec (fuel : Nat) :
    ∀ (ws : Workspace) (stack : List Nat),
      validDependents ws.arena →
      (∀ s ∈ stack, s < ws.arena.length) →
      unaffectedWeight ws.arena + stack.length < fuel →
      ∃ ws1, markRun fuel ws stack = some (.ok (), ws1) ∧
        ws1.hash = ws.hash ∧
        (∀ (i : Nat) (q : Project), ws.arena[i]? = some q →
          ∃ b : Bool, ws1.arena[i]? = some { q with affected := b } ∧
            (b = true ↔ (q.affected = true ∨ ∃ s ∈ stack, ReachAvoid ws.arena s i))) := by
  induction fuel with
  | zero => intro ws stack _ _ h; omega
  | succ n ih =>
    intro ws stack hdep hstack hb
    cases stack with
    | nil =>
      refine ⟨ws, by simp [markRun], rfl, ?_⟩
      intro i q hq
      exact ⟨q.affected, hq, by simp⟩
    | cons c rest =>
      have hc : c < ws.arena.length := hstack c (by simp)
      obtain ⟨p, hp⟩ : ∃ p, ws.arena[c]? = some p := ⟨_, List.getElem?_eq_getElem hc⟩
      by_cases haff : p.affected
      · obtain ⟨ws1, hrun, hhash, hchar⟩ := ih ws rest hdep
          (fun s hs => hstack s (by simp [hs]))
          (by simp only [List.length_cons] at hb; omega)
        refine ⟨ws1, ?_, hhash, ?_⟩
        · simp only [markRun, hp]
          rw [if_pos haff]
          exact hrun
        · intro i q hq
          obtain ⟨b, hbq, hiff⟩ := hchar i q hq
          refine ⟨b, hbq, ?_⟩
          rw [hiff]
          constructor
          · rintro (h1 | ⟨s, hs, hra⟩)
            · exact Or.inl h1
            · exact Or.inr ⟨s, by simp [hs], hra⟩
          · rintro (h1 | ⟨s, hs, hra⟩)
            · exact Or.inl h1
            · rcases List.mem_cons.mp hs with rfl | hs
              · obtain ⟨p1, hp1, hf1⟩ := hra.start_unaffected
                rw [hp] at hp1
                injection hp1 with hp1
                rw [← hp1] at hf1
                rw [hf1] at haff
                exact absurd haff (by simp)
              · exact Or.inr ⟨s, hs, hra⟩
      · have haff0 : p.affected = false := by simpa using haff
        have hpm : p ∈ ws.arena := List.getElem?_mem hp
        have hw := unaffectedWeight_set ws.arena c p hp haff0
        obtain ⟨ws1, hrun, hhash, hchar⟩ := ih
          ⟨ws.arena.set c { p with affected := true }, ws.hash⟩
          (p.dependents.reverse ++ rest)
          (by
            intro q hq d hd
            simp only [List.length_set]
            rcases List.mem_or_eq_of_mem_set hq with hq1 | hq1
            · exact hdep q hq1 d hd
            · subst hq1
              exact hdep p hpm d (by simpa using hd))
          (by
            intro s hs
            simp only [List.length_set]
            rcases List.mem_append.mp hs with hs1 | hs1
            · exact hdep p hpm s (List.mem_reverse.mp hs1)
            · exact hstack s (by simp [hs1]))
          (by
            simp only [List.length_append, List.length_reverse, List.length_cons] at hb ⊢
            omega)
        refine ⟨ws1, ?_, hhash, ?_⟩
        · simp only [markRun, hp]
          rw [if_neg haff]
          exact hrun
        · intro i q hq
          by_cases hi : i = c
          · subst hi
            rw [hp] at hq
            injection hq with hq
            subst hq
            have hmid : (ws.arena.set i { p with affected := true })[i]? =
                some { p with affected := true } :=
              List.getElem?_set_self (by simpa using hc)
            obtain ⟨b, hb1, hiff⟩ := hchar i _ hmid
            have hbT : b = true := hiff.mpr (Or.inl rfl)
            refine ⟨b, hb1, ?_⟩
            exact ⟨fun _ => Or.inr ⟨i, by simp, ReachAvoid.refl hp haff0⟩, fun _ => hbT⟩
          · have hmid : (ws.arena.set c { p with affected := true })[i]? = some q := by
              rw [List.getElem?_set_ne (fun hcc => hi hcc.symm)]
              exact hq
            obtain ⟨b, hb1, hiff⟩ := hchar i q hmid
            refine ⟨b, hb1, ?_⟩
            rw [hiff]
            constructor
            · rintro (h1 | ⟨s, hs, hra⟩)
              · exact Or.inl h1
              · have hraw : ReachAvoid ws.arena s i := ReachAvoid_of_set hp hra
                rcases List.mem_append.mp hs with hs1 | hs1
                · exact Or.inr ⟨c, by simp,
                    ReachAvoid.step hp haff0 (List.mem_reverse.mp hs1) hraw⟩
                · exact Or.inr ⟨s, by simp [hs1], hraw⟩
            · rintro (h1 | ⟨s, hs, hra⟩)
              · exact Or.inl h1
              · rcases ReachAvoid_set_cases hp haff0 hra with hcase | hcase | hcase
                · left
                  dsimp only [affectedAt] at hcase
                  rw [hmid] at hcase
                  exact hcase
                · rcases List.mem_cons.mp hs with rfl | hs1
                  · obtain ⟨p1, hp1, hf1⟩ := hcase.start_unaffected
                    have hmidc : (ws.arena.set s { p with affected := true })[s]? =
                        some { p with affected := true } :=
                      List.getElem?_set_self (by simpa using hc)
                    rw [hmidc] at hp1
                    injection hp1 with hp1
                    rw [← hp1] at hf1
                    exact absurd hf1 (by simp)
                  · exact Or.inr ⟨s, List.mem_append.mpr (Or.inr hs1), hcase⟩
                · obtain ⟨d, hd, hrad⟩ := hcase
                  exact Or.inr ⟨d, List.mem_append.mpr
                    (Or.inl (List.mem_reverse.mpr hd)), hrad⟩

/-- Forgetting the avoidance condition. -/
theorem Reaches_of_ReachAvoid {arena : List Project} {x y : Nat}
    (h : ReachAvoid arena x y) : Reaches arena x y := by
  induction h with
  | refl hx hf => exact Reaches.refl _
  | step hx hf hy hrec ih => exact Reaches.step hx hy ih

/-- With a dependents-closed affected set, affectedness propagates along
dependents-reachability. -/
theorem affected_propagates {arena : List Project}
    (hclosed : affectedClosed arena) {x y : Nat} (h : Reaches arena x y)
    (hx : affectedAt arena x = true) : affectedAt arena y = true := by
  induction h with
  | refl _ => exact hx
  | step hpx hy hrec ih =>
    rename_i x1 y1 z1 p
    apply ih
    dsimp only [affectedAt] at hx
    rw [hpx] at hx
    exact hclosed p (List.getElem?_mem hpx) hx y1 hy

/-- With a dependents-closed affected set and valid dependents, plain
reachability to a not-yet-affected target refines to avoid-reachability. -/
theorem ReachAvoid_of_reaches {arena : List Project}
    (hdep : validDependents arena) (hclosed : affectedClosed arena)
    {x y : Nat} (h : Reaches arena x y) (hx : x < arena.length)
    (hy : affectedAt arena y = false) : ReachAvoid arena x y := by
  induction h with
  | refl w =>
    obtain ⟨p, hp⟩ : ∃ p, arena[w]? = some p := ⟨_, List.getElem?_eq_getElem hx⟩
    refine ReachAvoid.refl hp ?_
    dsimp only [affectedAt] at hy
    rw [hp] at hy
    exact hy
  | step hpx hyd hrec ih =>
    rename_i x1 y1 z1 p
    have hpm : p ∈ arena := List.getElem?_mem hpx
    have hy1 : y1 < arena.length := hdep p hpm y1 hyd
    have hpf : p.affected = false := by
      by_cases hpa : p.affected
      · have hax : affectedAt arena x1 = true := by
          dsimp only [affectedAt]
          rw [hpx]
          exact hpa
        have := affected_propagates hclosed (Reaches.step hpx hyd hrec) hax
        rw [this] at hy
        exact absurd hy (by simp)
      · simpa using hpa
    exact ReachAvoid.step hpx hpf hyd (ih hy1 hy)

/-- C2: on any workspace whose dependents ids are valid and whose affected
set is closed under dependents edges (both hold for every workspace built
and marked through the public API), marking a valid id `x` returns `Ok`
and sets `affected` to true for exactly `x` and its transitive dependents;
every other project keeps its previous flag, and no other field of any
project, nor the path index, changes. -/
theorem c2_mark_affected_closure (ws : Workspace) (x : Nat)
    (hx : x < ws.arena.length)
    (hdep : validDependents ws.arena)
    (hclosed : affectedClosed ws.arena) :
    (ws.mark_project_as_affected x).1 = .ok () ∧
    (ws.mark_project_as_affected x).2.hash = ws.hash ∧
    (ws.mark_project_as_affected x).2.arena.length = ws.arena.length ∧
    (∀ (i : Nat) (q : Project), ws.arena[i]? = some q →
      ∃ b : Bool,
        (ws.mark_project_as_affected x).2.arena[i]? = some { q with affected := b } ∧
        (b = true ↔ (q.affected = true ∨ Reaches ws.arena x i))) := by
  obtain ⟨ws1, hrun, hhash, hchar⟩ := markRun_ok_spec (markBound ws [x]) ws [x] hdep
    (by intro s hs; rw [List.mem_singleton] at hs; subst hs; exact hx)
    (by simp [markBound])
  have hmark : ws.mark_project_as_affected x = (.ok (), ws1) := by
    simp [Workspace.mark_project_as_affected, hrun]
  obtain ⟨-, hlen, -⟩ := markRun_monotone (markBound ws [x]) ws [x] (.ok ()) ws1 hrun
  rw [hmark]
  refine ⟨rfl, hhash, hlen, ?_⟩
  intro i q hq
  obtain ⟨b, hb1, hiff⟩ := hchar i q hq
  refine ⟨b, hb1, ?_⟩
  rw [hiff]
  constructor
  · rintro (h1 | ⟨s, hs, hra⟩)
    · exact Or.inl h1
    · rw [List.mem_singleton] at hs
      subst hs
      exact Or.inr (Reaches_of_ReachAvoid hra)
  · rintro (h1 | hreach)
    · exact Or.inl h1
    · by_cases hqa : q.affected
      · exact Or.inl (by simpa using hqa)
      · refine Or.inr ⟨x, List.mem_singleton.mpr rfl, ?_⟩
        refine ReachAvoid_of_reaches hdep hclosed hreach hx ?_
        dsimp only [affectedAt]
        rw [hq]
        simpa using hqa

/-- Witness for C2 on the concrete two-project store `wsTwo` (`b` depends
on `a`, so `1 ∈ dependents of 0`): marking 0 affects both projects. -/
theorem c2_mark_affected_closure_witness :
    (wsTwo.mark_project_as_affected 0).1 = .ok () ∧
    (wsTwo.mark_project_as_affected 0).2.hash = wsTwo.hash ∧
    (wsTwo.mark_project_as_affected 0).2.arena.length = wsTwo.arena.length ∧
    (∀ (i : Nat) (q : Project), wsTwo.arena[i]? = some q →
      ∃ b : Bool,
        (wsTwo.mark_project_as_affected 0).2.arena[i]? = some { q with affected := b } ∧
        (b = true ↔ (q.affected = true ∨ Reaches wsTwo.arena 0 i))) :=
  c2_mark_affected_closure wsTwo 0 (by decide)
    (by unfold validDependents; decide) (by unfold affectedClosed; decide)

/-! ## Basic resolver lemmas -/

theorem declLookup_mem {l : List (String × ProjectDeclaration)} {path : String}
    {d : ProjectDeclaration} (h : declLookup l path = some d) : (path, d) ∈ l := by
  induction l with
  | nil => exact absurd h (by simp [declLookup])
  | cons hd tl ih =>
    obtain ⟨k, v⟩ := hd
    by_cases hk : k = path
    · subst hk
      simp only [declLookup, if_true] at h
      injection h with h
      subst h
      exact List.mem_cons_self _ _
    · simp only [declLookup, if_neg hk] at h
      exact List.mem_cons_of_mem _ (ih h)

theorem lookupDecl_isSome_iff (wd : WorkspaceDeclaration) (path : String) :
    (lookupDecl wd path).isSome = true ↔ path ∈ declKeys wd := by
  dsimp only [lookupDecl, declKeys]
  induction wd.projects with
  | nil => simp [declLookup]
  | cons hd tl ih =>
    obtain ⟨k, v⟩ := hd
    by_cases hk : k = path
    · subst hk
      simp [declLookup]
    · simp only [declLookup, if_neg hk, List.map_cons, List.mem_cons]
      rw [ih]
      constructor
      · exact fun h => Or.inr h
      · rintro (h | h)
        · exact absurd h.symm hk
        · exact h

theorem WSInv_new : WSInv Workspace.new := by
  refine ⟨?_, ?_, ?_, ?_, ?_⟩ <;> intro i <;> intro h <;>
    simp [Workspace.new, hashLookup] at *

theorem get_id_new (path : String) : Workspace.new.get_id_by_path path = none := rfl

theorem RefFaithful_new (wd : WorkspaceDeclaration) : RefFaithful wd Workspace.new := by
  intro x ix d hx
  exact absurd hx (by simp [get_id_new])

/-- When every dependency id is valid, registration succeeds. -/
theorem registerDependents_some_of_valid (deps : List Nat) (arena : List Project) (id : Nat)
    (h : ∀ d ∈ deps, d < arena.length) :
    ∃ arena1, registerDependents arena id deps = (none, arena1) := by
  induction deps generalizing arena with
  | nil => exact ⟨arena, rfl⟩
  | cons d rest ih =>
    have hd : d < arena.length := h d (by simp)
    obtain ⟨p, hp⟩ : ∃ p, arena[d]? = some p := ⟨_, List.getElem?_eq_getElem hd⟩
    obtain ⟨arena1, h1⟩ := ih (arena.set d (p.add_dependent id))
      (by intro e he; rw [List.length_set]; exact h e (by simp [he]))
    refine ⟨arena1, ?_⟩
    simp only [registerDependents, hp]
    exact h1

/-- `add_project` on a fresh path with no dependency list always succeeds,
with the stated result. -/
theorem add_project_none_deps (ws : Workspace) (p : Project)
    (h0 : hashLookup ws.hash p.path = none) (hd : p.dependencies = none) :
    ws.add_project p = (.ok ws.arena.length,
      { arena := ws.arena ++ [p], hash := hashInsert ws.hash p.path ws.arena.length }) := by
  dsimp only [Workspace.add_project]
  rw [h0]
  dsimp only
  rw [hd]

/-- `add_project` on a fresh path whose dependency ids are all valid
succeeds. -/
theorem add_project_succeeds (ws : Workspace) (p : Project)
    (h0 : hashLookup ws.hash p.path = none)
    (hv : ∀ d ∈ p.dependencies.getD [], d < ws.arena.length) :
    ∃ ws1, ws.add_project p = (.ok ws.arena.length, ws1) := by
  cases hd : p.dependencies with
  | none => exact ⟨_, add_project_none_deps ws p h0 hd⟩
  | some deps =>
    obtain ⟨arena1, h1⟩ := registerDependents_some_of_valid deps ws.arena ws.arena.length
      (by intro d hdm; exact hv d (by simp [hd, hdm]))
    refine ⟨{ arena := arena1 ++ [p], hash := hashInsert ws.hash p.path ws.arena.length }, ?_⟩
    dsimp only [Workspace.add_project]
    rw [h0]
    dsimp only
    rw [hd]
    dsimp only
    rw [h1]

/-- A member of the left list of a `Forall₂` has a related member on the
right. -/
theorem forall₂_exists_mem {α β : Type} {R : α → β → Prop} {l1 : List α} {l2 : List β}
    (h : List.Forall₂ R l1 l2) : ∀ a ∈ l1, ∃ b ∈ l2, R a b := by
  induction h with
  | nil => simp
  | cons hr hrest ih =>
    intro a ha
    rcases List.mem_cons.mp ha with rfl | ha
    · exact ⟨_, by simp, hr⟩
    · obtain ⟨b, hb, hab⟩ := ih a ha
      exact ⟨b, by simp [hb], hab⟩

theorem declRemaining_append_le (wd : WorkspaceDeclaration) (stack ext : List String) :
    declRemaining wd (stack ++ ext) ≤ declRemaining wd stack := by
  dsimp only [declRemaining]
  refine List.Sublist.length_le (List.monotone_filter_right _ ?_)
  intro a ha
  simp only [Bool.not_eq_true'] at ha ⊢
  simp at ha ⊢
  exact ha.1

theorem declRemaining_push_lt (wd : WorkspaceDeclaration) (stack : List String)
    (path : String) (hk : path ∈ declKeys wd) (hs : path ∉ stack) :
    declRemaining wd (stack ++ [path]) < declRemaining wd stack := by
  dsimp only [declRemaining]
  have hmono : ∀ l : List String,
      (l.filter (fun x => !(stack ++ [path]).contains x)).length ≤
        (l.filter (fun x => !stack.contains x)).length := by
    intro l
    refine List.Sublist.length_le (List.monotone_filter_right _ ?_)
    intro a ha
    simp at ha ⊢
    exact ha.1
  have hnewpath : (!(stack ++ [path]).contains path) = false := by simp
  have holdpath : (!stack.contains path) = true := by simp [hs]
  revert hk
  generalize declKeys wd = keys
  intro hk
  induction keys with
  | nil => exact absurd hk (by simp)
  | cons k rest ih =>
    rcases List.mem_cons.mp hk with rfl | hk2
    · simp only [List.filter_cons]
      rw [hnewpath, holdpath, if_neg (by simp : ¬(false = true)), if_pos rfl]
      simp only [List.length_cons]
      have := hmono rest
      omega
    · by_cases hkp : k = path
      · subst hkp
        simp only [List.filter_cons]
        rw [hnewpath, holdpath, if_neg (by simp : ¬(false = true)), if_pos rfl]
        simp only [List.length_cons]
        have := hmono rest
        omega
      · have hsame : ((!(stack ++ [path]).contains k)) = ((!stack.contains k)) := by
          simp [hkp]
        have hrec := ih hk2
        simp only [List.filter_cons]
        rw [hsame]
        cases hb : (!stack.contains k)
        · rw [if_neg (by simp : ¬(false = true)), if_neg (by simp : ¬(false = true))]
          omega
        · rw [if_pos rfl, if_pos rfl]
          simp only [List.length_cons]
          omega

theorem declRemaining_nil (wd : WorkspaceDeclaration) :
    declRemaining wd [] = wd.projects.length := by
  simp [declRemaining, declKeys]

/-- A successful `add_project` of a project with an empty dependents list
(which is how both the resolver and `Project::new` construct projects)
preserves the workspace invariant, including the transpose law. -/
theorem add_project_preserves_WSInv (ws ws1 : Workspace) (p : Project) (id : Nat)
    (hinv : WSInv ws) (hdept : p.dependents = [])
    (h : ws.add_project p = (.ok id, ws1)) : WSInv ws1 := by
  obtain ⟨hid, hfresh, hhash, hlen, hslot, hvalid, hchar⟩ := add_project_ok ws ws1 p id h
  subst hid
  have hlt_of_slot : ∀ (i : Nat) (q : Project), ws1.arena[i]? = some q →
      i < ws.arena.length + 1 := by
    intro i q hq
    rw [← hlen]
    by_contra hc
    push_neg at hc
    rw [List.getElem?_eq_none hc] at hq
    exact Option.noConfusion hq
  have hold_slot : ∀ (i : Nat), i < ws.arena.length → ∃ q, ws.arena[i]? = some q :=
    fun i hi => ⟨_, List.getElem?_eq_getElem hi⟩
  refine ⟨?_, ?_, ?_, ?_, ?_⟩
  · -- hashToArena
    intro k i hk
    rw [hhash] at hk
    by_cases hkp : k = p.path
    · subst hkp
      rw [hashLookup_insert_self] at hk
      injection hk with hk
      subst hk
      exact ⟨p, hslot, rfl⟩
    · rw [hashLookup_insert_ne _ _ _ _ hkp] at hk
      obtain ⟨q, hq, hqp⟩ := hinv.hashToArena k i hk
      exact ⟨_, hchar i q hq, hqp⟩
  · -- arenaToHash
    intro i q hq
    rw [hhash]
    by_cases hi : i = ws.arena.length
    · subst hi
      rw [hslot] at hq
      injection hq with hq
      subst hq
      exact hashLookup_insert_self _ _ _
    · have hilt : i < ws.arena.length := by
        have := hlt_of_slot i q hq
        omega
      obtain ⟨qi, hqi⟩ := hold_slot i hilt
      have hq1 := hchar i qi hqi
      rw [hq1] at hq
      injection hq with hq
      subst hq
      have hne : qi.path ≠ p.path := by
        intro hc
        have := hinv.arenaToHash i qi hqi
        rw [hc, hfresh] at this
        exact Option.noConfusion this
      rw [hashLookup_insert_ne _ _ _ _ hne]
      exact hinv.arenaToHash i qi hqi
  · -- depsLT
    intro i q hq d hd
    by_cases hi : i = ws.arena.length
    · subst hi
      rw [hslot] at hq
      injection hq with hq
      subst hq
      exact hvalid d hd
    · have hilt : i < ws.arena.length := by
        have := hlt_of_slot i q hq
        omega
      obtain ⟨qi, hqi⟩ := hold_slot i hilt
      have hq1 := hchar i qi hqi
      rw [hq1] at hq
      injection hq with hq
      subst hq
      exact hinv.depsLT i qi hqi d hd
  · -- dependentsValid
    intro i q hq d hd
    by_cases hi : i = ws.arena.length
    · subst hi
      rw [hslot] at hq
      injection hq with hq
      subst hq
      rw [hdept] at hd
      exact absurd hd (by simp)
    · have hilt : i < ws.arena.length := by
        have := hlt_of_slot i q hq
        omega
      obtain ⟨qi, hqi⟩ := hold_slot i hilt
      have hq1 := hchar i qi hqi
      rw [hq1] at hq
      injection hq with hq
      subst hq
      simp only [List.mem_append] at hd
      rcases hd with hd | hd
      · have := hinv.dependentsValid i qi hqi d hd
        omega
      · rw [List.eq_of_mem_replicate hd, hlen]
        omega
  · -- transpose
    intro i j q1 q2 hq1 hq2
    by_cases hi : i = ws.arena.length
    · subst hi
      rw [hslot] at hq1
      injection hq1 with hq1
      subst hq1
      rw [hdept]
      by_cases hj : j = ws.arena.length
      · subst hj
        rw [hslot] at hq2
        injection hq2 with hq2
        subst hq2
        constructor
        · intro hc
          exact absurd hc (by simp)
        · intro hc
          have := hvalid _ hc
          omega
      · have hjlt : j < ws.arena.length := by
          have := hlt_of_slot j q2 hq2
          omega
        obtain ⟨qj, hqj⟩ := hold_slot j hjlt
        have hq2c := hchar j qj hqj
        rw [hq2c] at hq2
        injection hq2 with hq2
        subst hq2
        constructor
        · intro hc
          exact absurd hc (by simp)
        · intro hc
          have := hinv.depsLT j qj hqj _ hc
          omega
    · have hilt : i < ws.arena.length := by
        have := hlt_of_slot i q1 hq1
        omega
      obtain ⟨qi, hqi⟩ := hold_slot i hilt
      have hq1c := hchar i qi hqi
      rw [hq1c] at hq1
      injection hq1 with hq1
      subst hq1
      by_cases hj : j = ws.arena.length
      · subst hj
        rw [hslot] at hq2
        injection hq2 with hq2
        subst hq2
        simp only [List.mem_append, List.mem_replicate]
        constructor
        · rintro (hc | ⟨hcnt, -⟩)
          · have := hinv.dependentsValid i qi hqi _ hc
            omega
          · rw [← List.count_pos_iff]
            omega
        · intro hc
          refine Or.inr ⟨?_, trivial⟩
          rw [← List.count_pos_iff] at hc
          omega
      · have hjlt : j < ws.arena.length := by
          have := hlt_of_slot j q2 hq2
          omega
        obtain ⟨qj, hqj⟩ := hold_slot j hjlt
        have hq2c := hchar j qj hqj
        rw [hq2c] at hq2
        injection hq2 with hq2
        subst hq2
        simp only [List.mem_append, List.mem_replicate]
        have htr := hinv.transpose i j qi qj hqi hqj
        constructor
        · rintro (hc | ⟨-, hc⟩)
          · exact htr.mp hc
          · omega
        · intro hc
          exact Or.inl (htr.mpr hc)

/-- `pathInWs` is monotone along any mapping-preserving step. -/
theorem pathInWs_mono {ws ws1 : Workspace}
    (hmono : ∀ (k : String) (i : Nat), ws.get_id_by_path k = some i →
      ws1.get_id_by_path k = some i) :
    ∀ x : String, pathInWs ws x = true → pathInWs ws1 x = true := by
  intro x hx
  dsimp only [pathInWs] at hx ⊢
  rw [Option.isSome_iff_exists] at hx ⊢
  obtain ⟨i, hi⟩ := hx
  exact ⟨i, hmono x i hi⟩

/-- Postconditions compose along the dependency-resolution loop. -/
theorem resolveDepsWith_ok_spec (wd : WorkspaceDeclaration)
    (f : String → Workspace → List String →
      Option (Except BuildWorkspaceError (Nat × Workspace × List String)))
    (hf : ∀ (d : String) (w : Workspace) (st : List String) (i : Nat)
      (w1 : Workspace) (st1 : List String),
      f d w st = some (.ok (i, w1, st1)) → ResolveOk wd d w st i w1 st1) :
    ∀ (deps : List String) (ws : Workspace) (stack : List String)
      (ids : List Nat) (ws1 : Workspace) (stack1 : List String),
      resolveDepsWith f deps ws stack = some (.ok (ids, ws1, stack1)) →
      ResolveDepsOk wd deps ws stack ids ws1 stack1 := by
  intro deps
  induction deps with
  | nil =>
    intro ws stack ids ws1 stack1 h
    simp only [resolveDepsWith, Option.some.injEq, Except.ok.injEq,
      Prod.mk.injEq] at h
    obtain ⟨h1, h2, h3⟩ := h
    subst h1
    subst h2
    subst h3
    refine ⟨⟨[], by simp⟩, fun x hx => Or.inl hx, fun k i hk => hk,
      fun x hx => Or.inl hx, Nat.le_refl _, fun hi => hi, fun _ hfa => hfa,
      fun i q hq => ⟨[], by simpa using hq⟩, List.Forall₂.nil⟩
  | cons d rest ih =>
    intro ws stack ids ws1 stack1 h
    simp only [resolveDepsWith] at h
    cases h1 : f d ws stack with
    | none => rw [h1] at h; exact absurd h (by simp)
    | some r1 =>
      rw [h1] at h
      cases r1 with
      | error e => exact absurd h (by simp)
      | ok t1 =>
        obtain ⟨i1, w1, st1⟩ := t1
        dsimp only at h
        cases h2 : resolveDepsWith f rest w1 st1 with
        | none => rw [h2] at h; exact absurd h (by simp)
        | some r2 =>
          rw [h2] at h
          cases r2 with
          | error e => exact absurd h (by simp)
          | ok t2 =>
            obtain ⟨ids2, w2, st2⟩ := t2
            simp only [Option.some.injEq, Except.ok.injEq, Prod.mk.injEq] at h
            obtain ⟨hids, hw, hst⟩ := h
            subst hids
            subst hw
            subst hst
            have R1 := hf d ws stack i1 w1 st1 h1
            have R2 := ih w1 st1 ids2 w2 st2 h2
            have hm12 := pathInWs_mono R2.wsMono
            refine ⟨?_, ?_, ?_, ?_, ?_, ?_, ?_, ?_, ?_⟩
            · obtain ⟨e1, he1⟩ := R1.stackExt
              obtain ⟨e2, he2⟩ := R2.stackExt
              exact ⟨e1 ++ e2, by rw [he2, he1, List.append_assoc]⟩
            · intro x hx
              rcases R2.stackResolved x hx with hx1 | hx1
              · rcases R1.stackResolved x hx1 with hx2 | hx2
                · exact Or.inl hx2
                · exact Or.inr (hm12 x hx2)
              · exact Or.inr hx1
            · exact fun k i hk => R2.wsMono k i (R1.wsMono k i hk)
            · intro x hx
              rcases R2.newPaths x hx with hx1 | ⟨hx1, hx2⟩
              · rcases R1.newPaths x hx1 with hx2 | ⟨hx2, hx3⟩
                · exact Or.inl hx2
                · exact Or.inr ⟨hx2, hx3⟩
              · refine Or.inr ⟨?_, hx2⟩
                obtain ⟨e1, he1⟩ := R1.stackExt
                intro hc
                exact hx1 (he1 ▸ List.mem_append.mpr (Or.inl hc))
            · exact Nat.le_trans R1.lenMono R2.lenMono
            · exact fun hi => R2.inv (R1.inv hi)
            · exact fun hi hfa => R2.faithful (R1.inv hi) (R1.faithful hi hfa)
            · intro i q hq
              obtain ⟨e1, he1⟩ := R1.fieldsKept i q hq
              obtain ⟨e2, he2⟩ := R2.fieldsKept i _ he1
              exact ⟨e1 ++ e2, by simpa [List.append_assoc] using he2⟩
            · exact List.Forall₂.cons (R2.wsMono d i1 R1.pathRes) R2.idsRes

theorem lt_of_getElem?_eq_some {α : Type} {l : List α} {i : Nat} {a : α}
    (h : l[i]? = some a) : i < l.length := by
  by_contra hc
  push_neg at hc
  rw [List.getElem?_eq_none hc] at h
  exact Option.noConfusion h

/-- The trivial postcondition bundle of the empty dependency loop. -/
theorem ResolveDepsOk_refl (wd : WorkspaceDeclaration) (ws : Workspace)
    (stack : List String) : ResolveDepsOk wd [] ws stack [] ws stack :=
  ⟨⟨[], by simp⟩, fun x hx => Or.inl hx, fun k i hk => hk, fun x hx => Or.inl hx,
    Nat.le_refl _, fun hi => hi, fun _ hfa => hfa,
    fun i q hq => ⟨[], by simpa using hq⟩, List.Forall₂.nil⟩

/-- The postcondition bundle of the early return (path already resolved). -/
theorem ResolveOk_refl (wd : WorkspaceDeclaration) (path : String) (ws : Workspace)
    (stack : List String) (id : Nat) (h : ws.get_id_by_path path = some id) :
    ResolveOk wd path ws stack id ws stack :=
  ⟨⟨[], by simp⟩, fun x hx => Or.inl hx, fun k i hk => hk, fun x hx => Or.inl hx,
    Nat.le_refl _, h, fun hi => hi, fun _ hfa => hfa,
    fun i q hq => ⟨[], by simpa using hq⟩⟩

/-- Gluing the postconditions of the dependency loop with the final
`add_project` of the resolved path. -/
theorem resolve_add_glue (wd : WorkspaceDeclaration) (path : String)
    (ws wsM wsA : Workspace) (stack stackM : List String)
    (decl : ProjectDeclaration) (ids : List Nat) (proj : Project) (idA : Nat)
    (hfree0 : ws.get_id_by_path path = none)
    (hnotstack : path ∉ stack)
    (hkey : lookupDecl wd path = some decl)
    (D : ResolveDepsOk wd (depsOfDecl decl) ws (stack ++ [path]) ids wsM stackM)
    (hpp : proj.path = path) (hpd : proj.dependents = [])
    (hpdep : proj.dependencies.getD [] = ids)
    (hadd : wsM.add_project proj = (.ok idA, wsA)) :
    ResolveOk wd path ws stack idA wsA stackM := by
  obtain ⟨hid, hfreshM, hhashA, hlenA, hslotA, hvalidA, hcharA⟩ :=
    add_project_ok wsM wsA proj idA hadd
  have hkeymem : path ∈ declKeys wd := by
    rw [← lookupDecl_isSome_iff]
    rw [hkey]
    rfl
  have hgetA : ∀ k : String, k ≠ path →
      wsA.get_id_by_path k = wsM.get_id_by_path k := by
    intro k hk
    dsimp only [Workspace.get_id_by_path]
    rw [hhashA, hpp]
    exact hashLookup_insert_ne _ _ _ _ hk
  have hgetApath : wsA.get_id_by_path path = some wsM.arena.length := by
    dsimp only [Workspace.get_id_by_path]
    rw [hhashA, hpp]
    exact hashLookup_insert_self _ _ _
  have hfreeM : wsM.get_id_by_path path = none := by
    dsimp only [Workspace.get_id_by_path]
    rw [← hpp]
    exact hfreshM
  refine ⟨?_, ?_, ?_, ?_, ?_, ?_, ?_, ?_, ?_⟩
  · obtain ⟨ext, hext⟩ := D.stackExt
    exact ⟨path :: ext, by rw [hext, List.append_assoc]; rfl⟩
  · intro x hx
    rcases D.stackResolved x hx with hx1 | hx1
    · rcases List.mem_append.mp hx1 with hx2 | hx2
      · exact Or.inl hx2
      · rw [List.mem_singleton] at hx2
        subst hx2
        refine Or.inr ?_
        dsimp only [pathInWs]
        rw [hgetApath]
        rfl
    · refine Or.inr ?_
      have hxp : x ≠ path := by
        intro hc
        subst hc
        dsimp only [pathInWs] at hx1
        rw [hfreeM] at hx1
        exact absurd hx1 (by simp)
      dsimp only [pathInWs] at hx1 ⊢
      rw [hgetA x hxp]
      exact hx1
  · intro k i hk
    have hkp : k ≠ path := by
      intro hc
      subst hc
      rw [hfree0] at hk
      exact Option.noConfusion hk
    rw [hgetA k hkp]
    exact D.wsMono k i hk
  · intro x hx
    by_cases hxp : x = path
    · subst hxp
      exact Or.inr ⟨hnotstack, hkeymem⟩
    · dsimp only [pathInWs] at hx
      rw [hgetA x hxp] at hx
      rcases D.newPaths x hx with hx1 | ⟨hx1, hx2⟩
      · exact Or.inl hx1
      · refine Or.inr ⟨?_, hx2⟩
        intro hc
        exact hx1 (List.mem_append.mpr (Or.inl hc))
  · exact Nat.le_trans D.lenMono (by omega)
  · rw [hid]
    exact hgetApath
  · exact fun hi => add_project_preserves_WSInv wsM wsA proj idA (D.inv hi) hpd hadd
  · intro hi hfa
    have hinvM := D.inv hi
    have hfaM := D.faithful hi hfa
    intro x ix δ hx hδ y hy
    have hynp : ∀ iy : Nat, wsM.get_id_by_path y = some iy → y ≠ path := by
      intro iy hiy hc
      subst hc
      rw [hfreeM] at hiy
      exact Option.noConfusion hiy
    by_cases hxp : x = path
    · subst hxp
      rw [hgetApath] at hx
      injection hx with hx
      subst hx
      have hδd : δ = decl := by
        rw [hkey] at hδ
        injection hδ with hδ
        exact hδ.symm
      subst hδd
      obtain ⟨iy, hiymem, hiy⟩ := forall₂_exists_mem D.idsRes y hy
      have hylt : iy < wsM.arena.length := by
        obtain ⟨q, hq, -⟩ := hinvM.hashToArena y iy hiy
        exact lt_of_getElem?_eq_some hq
      refine ⟨iy, ?_, hylt⟩
      rw [hgetA y (hynp iy hiy)]
      exact hiy
    · rw [hgetA x hxp] at hx
      obtain ⟨iy, hiy, hylt⟩ := hfaM x ix δ hx hδ y hy
      refine ⟨iy, ?_, hylt⟩
      rw [hgetA y (hynp iy hiy)]
      exact hiy
  · intro i q hq
    obtain ⟨e1, he1⟩ := D.fieldsKept i q hq
    have hc := hcharA i _ he1
    rw [hpdep] at hc
    exact ⟨e1 ++ List.replicate (ids.count i) wsM.arena.length,
      by simpa [List.append_assoc] using hc⟩

/-- Postconditions of every successful `add_project_to_workspace` call,
for any fuel. -/
theorem resolve_ok_spec (fuel : Nat) :
    ∀ (wd : WorkspaceDeclaration) (path : String) (ws : Workspace)
      (stack : List String) (id : Nat) (ws1 : Workspace) (stack1 : List String),
      add_project_to_workspace fuel wd path ws stack = some (.ok (id, ws1, stack1)) →
      ResolveOk wd path ws stack id ws1 stack1 := by
  induction fuel with
  | zero =>
    intro wd path ws stack id ws1 stack1 h
    exact absurd h (by simp [add_project_to_workspace])
  | succ n ih =>
    intro wd path ws stack id ws1 stack1 h
    simp only [add_project_to_workspace] at h
    cases hearly : ws.get_id_by_path path with
    | some id0 =>
      rw [hearly] at h
      dsimp only at h
      simp only [Option.some.injEq, Except.ok.injEq, Prod.mk.injEq] at h
      obtain ⟨h1, h2, h3⟩ := h
      subst h1
      subst h2
      subst h3
      exact ResolveOk_refl wd path ws stack id0 hearly
    | none =>
      rw [hearly] at h
      dsimp only at h
      by_cases hmem : path ∈ stack
      · rw [if_pos hmem] at h
        exact absurd h (by simp)
      · rw [if_neg hmem] at h
        cases hkey : lookupDecl wd path with
        | none => rw [hkey] at h; exact absurd h (by simp)
        | some decl =>
          rw [hkey] at h
          dsimp only at h
          cases hdeps : decl.dependencies with
          | none =>
            rw [hdeps] at h
            dsimp only at h
            rw [add_project_none_deps ws ⟨path, decl.name, none, [], false⟩
              hearly rfl] at h
            dsimp only at h
            simp only [Option.some.injEq, Except.ok.injEq, Prod.mk.injEq] at h
            obtain ⟨h1, h2, h3⟩ := h
            subst h1
            subst h2
            subst h3
            refine resolve_add_glue wd path ws ws _ stack (stack ++ [path]) decl []
              ⟨path, decl.name, none, [], false⟩ _ hearly hmem hkey ?_ rfl rfl rfl
              (add_project_none_deps ws ⟨path, decl.name, none, [], false⟩ hearly rfl)
            have : depsOfDecl decl = [] := by simp [depsOfDecl, hdeps]
            rw [this]
            exact ResolveDepsOk_refl wd ws (stack ++ [path])
          | some deps =>
            rw [hdeps] at h
            dsimp only at h
            cases hres : resolveDepsWith
                (fun d w st => add_project_to_workspace n wd d w st)
                deps ws (stack ++ [path]) with
            | none => rw [hres] at h; exact absurd h (by simp)
            | some r =>
              rw [hres] at h
              cases r with
              | error e => exact absurd h (by simp)
              | ok t =>
                obtain ⟨ids, wsM, stackM⟩ := t
                dsimp only at h
                cases hadd : wsM.add_project ⟨path, decl.name, some ids, [], false⟩ with
                | mk radd wsA =>
                  rw [hadd] at h
                  cases radd with
                  | error e => exact absurd h (by simp)
                  | ok idA =>
                    dsimp only at h
                    simp only [Option.some.injEq, Except.ok.injEq, Prod.mk.injEq] at h
                    obtain ⟨h1, h2, h3⟩ := h
                    subst h1
                    subst h2
                    subst h3
                    have D := resolveDepsWith_ok_spec wd _
                      (fun d w st i w1 st1 hh => ih wd d w st i w1 st1 hh)
                      deps ws (stack ++ [path]) ids wsM stackM hres
                    refine resolve_add_glue wd path ws wsM wsA stack stackM decl ids
                      ⟨path, decl.name, some ids, [], false⟩ idA hearly hmem hkey ?_
                      rfl rfl rfl hadd
                    have : depsOfDecl decl = deps := by simp [depsOfDecl, hdeps]
                    rw [this]
                    exact D

/-- A member of the right list of a `Forall₂` has a related member on the
left. -/
theorem forall₂_exists_mem_right {α β : Type} {R : α → β → Prop} {l1 : List α}
    {l2 : List β} (h : List.Forall₂ R l1 l2) : ∀ b ∈ l2, ∃ a ∈ l1, R a b := by
  induction h with
  | nil => simp
  | cons hr hrest ih =>
    intro b hb
    rcases List.mem_cons.mp hb with rfl | hb
    · exact ⟨_, by simp, hr⟩
    · obtain ⟨a, ha, hab⟩ := ih b hb
      exact ⟨a, by simp [ha], hab⟩

/-- After the dependency loop of a path that was unresolved at entry and
sits on the stack, the final `add_project` of that path always succeeds:
the path is still unresolved, and all the collected ids are valid. -/
theorem final_add_ok (wd : WorkspaceDeclaration) (path nm : String) (deps : List String)
    (ws wsM : Workspace) (stack stackM : List String) (ids : List Nat)
    (hearly : ws.get_id_by_path path = none) (hinv : WSInv ws)
    (D : ResolveDepsOk wd deps ws (stack ++ [path]) ids wsM stackM) :
    ∃ wsA, wsM.add_project ⟨path, nm, some ids, [], false⟩ =
      (.ok wsM.arena.length, wsA) := by
  have hinvM := D.inv hinv
  have hfresh : hashLookup wsM.hash path = none := by
    cases hc : wsM.get_id_by_path path with
    | none => exact hc
    | some i =>
      have hps : pathInWs wsM path = true := by
        dsimp only [pathInWs]
        rw [hc]
        rfl
      rcases D.newPaths path hps with h1 | ⟨h1, -⟩
      · dsimp only [pathInWs] at h1
        rw [hearly] at h1
        exact absurd h1 (by simp)
      · exact absurd (List.mem_append.mpr (Or.inr (List.mem_singleton.mpr rfl))) h1
  exact add_project_succeeds wsM ⟨path, nm, some ids, [], false⟩ hfresh
    (by
      intro d hd
      simp only [Option.getD_some] at hd
      obtain ⟨y, -, hy⟩ := forall₂_exists_mem_right D.idsRes d hd
      obtain ⟨q, hq, -⟩ := hinvM.hashToArena y d hy
      exact lt_of_getElem?_eq_some hq)

/-- Under closed declarations, every halted run of the dependency loop is
either a success or a cycle report of the shape
`stack contents ++ [repeated path]`. -/
theorem resolveDeps_closed_shape (wd : WorkspaceDeclaration)
    (f : String → Workspace → List String →
      Option (Except BuildWorkspaceError (Nat × Workspace × List String)))
    (hfA : ∀ (d : String) (w : Workspace) (st : List String) (i : Nat)
      (w1 : Workspace) (st1 : List String),
      f d w st = some (.ok (i, w1, st1)) → ResolveOk wd d w st i w1 st1)
    (hfEK : ∀ (d : String) (w : Workspace) (st : List String)
      (r : Except BuildWorkspaceError (Nat × Workspace × List String)),
      WSInv w → d ∈ declKeys wd → f d w st = some r →
      (∃ i w1 st1, r = .ok (i, w1, st1)) ∨
      (∃ l q, r = .error (.CyclicDependencyFound (l ++ [q])) ∧ q ∈ l)) :
    ∀ (deps : List String) (ws : Workspace) (stack : List String)
      (r : Except BuildWorkspaceError (List Nat × Workspace × List String)),
      WSInv ws → (∀ d ∈ deps, d ∈ declKeys wd) →
      resolveDepsWith f deps ws stack = some r →
      (∃ ids ws1 stack1, r = .ok (ids, ws1, stack1)) ∨
      (∃ l q, r = .error (.CyclicDependencyFound (l ++ [q])) ∧ q ∈ l) := by
  intro deps
  induction deps with
  | nil =>
    intro ws stack r hinv hkeys h
    simp only [resolveDepsWith, Option.some.injEq] at h
    exact Or.inl ⟨[], ws, stack, h.symm⟩
  | cons d rest ih =>
    intro ws stack r hinv hkeys h
    simp only [resolveDepsWith] at h
    cases h1 : f d ws stack with
    | none => rw [h1] at h; exact absurd h (by simp)
    | some r1 =>
      rw [h1] at h
      rcases hfEK d ws stack r1 hinv (hkeys d (by simp)) h1 with
        ⟨i1, w1, st1, hr1⟩ | ⟨l, q, hr1, hql⟩
      · subst hr1
        dsimp only at h
        cases h2 : resolveDepsWith f rest w1 st1 with
        | none => rw [h2] at h; exact absurd h (by simp)
        | some r2 =>
          rw [h2] at h
          have hinv1 := (hfA d ws stack i1 w1 st1 h1).inv hinv
          rcases ih w1 st1 r2 hinv1 (fun e he => hkeys e (by simp [he])) h2 with
            ⟨ids2, w2, st2, hr2⟩ | ⟨l, q, hr2, hql⟩
          · subst hr2
            dsimp only at h
            injection h with h
            exact Or.inl ⟨i1 :: ids2, w2, st2, h.symm⟩
          · subst hr2
            dsimp only at h
            injection h with h
            exact Or.inr ⟨l, q, h.symm, hql⟩
      · subst hr1
        dsimp only at h
        injection h with h
        exact Or.inr ⟨l, q, h.symm, hql⟩

/-- Under closed declarations, every halted resolution of a declared path
is either a success or a cycle report of the shape
`stack contents ++ [repeated path]`. -/
theorem resolve_closed_shape (fuel : Nat) :
    ∀ (wd : WorkspaceDeclaration) (path : String) (ws : Workspace)
      (stack : List String)
      (r : Except BuildWorkspaceError (Nat × Workspace × List String)),
      ClosedDecls wd → WSInv ws → path ∈ declKeys wd →
      add_project_to_workspace fuel wd path ws stack = some r →
      (∃ id ws1 stack1, r = .ok (id, ws1, stack1)) ∨
      (∃ l q, r = .error (.CyclicDependencyFound (l ++ [q])) ∧ q ∈ l) := by
  induction fuel with
  | zero =>
    intro wd path ws stack r hcl hinv hkey h
    exact absurd h (by simp [add_project_to_workspace])
  | succ n ih =>
    intro wd path ws stack r hcl hinv hkey h
    simp only [add_project_to_workspace] at h
    cases hearly : ws.get_id_by_path path with
    | some id0 =>
      rw [hearly] at h
      dsimp only at h
      injection h with h
      exact Or.inl ⟨id0, ws, stack, h.symm⟩
    | none =>
      rw [hearly] at h
      dsimp only at h
      by_cases hmem : path ∈ stack
      · rw [if_pos hmem] at h
        injection h with h
        exact Or.inr ⟨stack, path, h.symm, hmem⟩
      · rw [if_neg hmem] at h
        cases hlook : lookupDecl wd path with
        | none =>
          have := (lookupDecl_isSome_iff wd path).mpr hkey
          rw [hlook] at this
          exact absurd this (by simp)
        | some decl =>
          rw [hlook] at h
          dsimp only at h
          cases hdeps : decl.dependencies with
          | none =>
            rw [hdeps] at h
            dsimp only at h
            rw [add_project_none_deps ws ⟨path, decl.name, none, [], false⟩
              hearly rfl] at h
            dsimp only at h
            injection h with h
            exact Or.inl ⟨_, _, _, h.symm⟩
          | some deps =>
            rw [hdeps] at h
            dsimp only at h
            have hdepskeys : ∀ d ∈ deps, d ∈ declKeys wd := by
              intro d hd
              have hmemdecl := declLookup_mem hlook
              have := hcl (path, decl) hmemdecl d
              exact this (by simp [depsOfDecl, hdeps, hd])
            cases hres : resolveDepsWith
                (fun d w st => add_project_to_workspace n wd d w st)
                deps ws (stack ++ [path]) with
            | none => rw [hres] at h; exact absurd h (by simp)
            | some rD =>
              rw [hres] at h
              rcases resolveDeps_closed_shape wd _
                (fun d w st i w1 st1 hh => resolve_ok_spec n wd d w st i w1 st1 hh)
                (fun d w st rr hw hk hh => ih wd d w st rr hcl hw hk hh)
                deps ws (stack ++ [path]) rD hinv hdepskeys hres with
                ⟨ids, wsM, stackM, hrD⟩ | ⟨l, q, hrD, hql⟩
              · subst hrD
                dsimp only at h
                have D := resolveDepsWith_ok_spec wd _
                  (fun d w st i w1 st1 hh => resolve_ok_spec n wd d w st i w1 st1 hh)
                  deps ws (stack ++ [path]) ids wsM stackM hres
                obtain ⟨wsA, haddeq⟩ := final_add_ok wd path decl.name deps ws wsM
                  stack stackM ids hearly hinv D
                rw [haddeq] at h
                dsimp only at h
                injection h with h
                exact Or.inl ⟨_, _, _, h.symm⟩
              · subst hrD
                dsimp only at h
                injection h with h
                exact Or.inr ⟨l, q, h.symm, hql⟩

/-- The dependency loop halts when each single resolution halts at the
given fuel and successful resolutions only grow the stack. -/
theorem resolveDeps_isSome (wd : WorkspaceDeclaration)
    (f : String → Workspace → List String →
      Option (Except BuildWorkspaceError (Nat × Workspace × List String)))
    (n : Nat)
    (hfA : ∀ (d : String) (w : Workspace) (st : List String) (i : Nat)
      (w1 : Workspace) (st1 : List String),
      f d w st = some (.ok (i, w1, st1)) → ResolveOk wd d w st i w1 st1)
    (hfT : ∀ (d : String) (w : Workspace) (st : List String),
      declRemaining wd st + 1 ≤ n → (f d w st).isSome = true) :
    ∀ (deps : List String) (ws : Workspace) (stack : List String),
      declRemaining wd stack + 1 ≤ n →
      (resolveDepsWith f deps ws stack).isSome = true := by
  intro deps
  induction deps with
  | nil => intro ws stack hfuel; simp [resolveDepsWith]
  | cons d rest ih =>
    intro ws stack hfuel
    simp only [resolveDepsWith]
    have h1 := hfT d ws stack hfuel
    rw [Option.isSome_iff_exists] at h1
    obtain ⟨r1, hr1⟩ := h1
    rw [hr1]
    cases r1 with
    | error e => simp
    | ok t =>
      obtain ⟨i1, w1, st1⟩ := t
      dsimp only
      obtain ⟨ext, hext⟩ := (hfA d ws stack i1 w1 st1 hr1).stackExt
      have hfuel1 : declRemaining wd st1 + 1 ≤ n := by
        have := declRemaining_append_le wd stack ext
        rw [← hext] at this
        omega
      have h2 := ih w1 st1 hfuel1
      rw [Option.isSome_iff_exists] at h2
      obtain ⟨r2, hr2⟩ := h2
      rw [hr2]
      cases r2 with
      | error e => simp
      | ok t2 => obtain ⟨ids2, w2, st2⟩ := t2; simp

/-- Fuel sufficiency for the resolver: `declRemaining + 1` steps always
suffice for `add_project_to_workspace` to halt (with a success or an
error). -/
theorem resolve_isSome (fuel : Nat) :
    ∀ (wd : WorkspaceDeclaration) (path : String) (ws : Workspace)
      (stack : List String),
      declRemaining wd stack + 1 ≤ fuel →
      (add_project_to_workspace fuel wd path ws stack).isSome = true := by
  induction fuel with
  | zero => intro wd path ws stack hfuel; omega
  | succ n ih =>
    intro wd path ws stack hfuel
    simp only [add_project_to_workspace]
    cases hearly : ws.get_id_by_path path with
    | some id0 => simp
    | none =>
      by_cases hmem : path ∈ stack
      · rw [if_pos hmem]
        simp
      · rw [if_neg hmem]
        cases hlook : lookupDecl wd path with
        | none => simp
        | some decl =>
          dsimp only
          cases hdeps : decl.dependencies with
          | none =>
            dsimp only
            cases wsM : ws.add_project ⟨path, decl.name, none, [], false⟩ with
            | mk radd wsA => cases radd <;> simp
          | some deps =>
            dsimp only
            have hkeymem : path ∈ declKeys wd := by
              rw [← lookupDecl_isSome_iff, hlook]
              rfl
            have hlt := declRemaining_push_lt wd stack path hkeymem hmem
            have hres := resolveDeps_isSome wd
              (fun d w st => add_project_to_workspace n wd d w st) n
              (fun d w st i w1 st1 hh => resolve_ok_spec n wd d w st i w1 st1 hh)
              (fun d w st hf => ih wd d w st hf)
              deps ws (stack ++ [path]) (by omega)
            rw [Option.isSome_iff_exists] at hres
            obtain ⟨rD, hrD⟩ := hres
            rw [hrD]
            cases rD with
            | error e => simp
            | ok t =>
              obtain ⟨ids, wsM, stackM⟩ := t
              dsimp only
              cases hadd : wsM.add_project ⟨path, decl.name, some ids, [], false⟩ with
              | mk radd wsA => cases radd <;> simp

/-- The dependency loop succeeds when each single resolution does. -/
theorem resolveDeps_acyclic_ok (wd : WorkspaceDeclaration)
    (f : String → Workspace → List String →
      Option (Except BuildWorkspaceError (Nat × Workspace × List String)))
    (n : Nat)
    (hfA : ∀ (d : String) (w : Workspace) (st : List String) (i : Nat)
      (w1 : Workspace) (st1 : List String),
      f d w st = some (.ok (i, w1, st1)) → ResolveOk wd d w st i w1 st1)
    (hfB : ∀ (d : String) (w : Workspace) (st : List String),
      WSInv w → d ∈ declKeys wd → declRemaining wd st + 1 ≤ n →
      (∀ x ∈ st, pathInWs w x = false → Relation.TransGen (RefEdge wd) x d) →
      ∃ i w1 st1, f d w st = some (.ok (i, w1, st1))) :
    ∀ (deps : List String) (ws : Workspace) (stack : List String),
      WSInv ws → (∀ d ∈ deps, d ∈ declKeys wd) →
      declRemaining wd stack + 1 ≤ n →
      (∀ d ∈ deps, ∀ x ∈ stack, pathInWs ws x = false →
        Relation.TransGen (RefEdge wd) x d) →
      ∃ ids ws1 stack1,
        resolveDepsWith f deps ws stack = some (.ok (ids, ws1, stack1)) := by
  intro deps
  induction deps with
  | nil =>
    intro ws stack hinv hkeys hfuel hreach
    exact ⟨[], ws, stack, rfl⟩
  | cons d rest ih =>
    intro ws stack hinv hkeys hfuel hreach
    obtain ⟨i1, w1, st1, h1⟩ := hfB d ws stack hinv (hkeys d (by simp)) hfuel
      (fun x hx hf => hreach d (by simp) x hx hf)
    have R1 := hfA d ws stack i1 w1 st1 h1
    obtain ⟨ext, hext⟩ := R1.stackExt
    have hfuel1 : declRemaining wd st1 + 1 ≤ n := by
      have := declRemaining_append_le wd stack ext
      rw [← hext] at this
      omega
    have hreach1 : ∀ e ∈ rest, ∀ x ∈ st1, pathInWs w1 x = false →
        Relation.TransGen (RefEdge wd) x e := by
      intro e he x hx hf
      have hxs : x ∈ stack := by
        rcases R1.stackResolved x hx with h2 | h2
        · exact h2
        · rw [h2] at hf
          exact absurd hf (by simp)
      have hfold : pathInWs ws x = false := by
        cases hc : pathInWs ws x with
        | false => rfl
        | true =>
          have := pathInWs_mono R1.wsMono x hc
          rw [this] at hf
          exact absurd hf (by simp)
      exact hreach e (by simp [he]) x hxs hfold
    obtain ⟨ids2, w2, st2, h2⟩ := ih w1 st1 (R1.inv hinv)
      (fun e he => hkeys e (by simp [he])) hfuel1 hreach1
    refine ⟨i1 :: ids2, w2, st2, ?_⟩
    simp only [resolveDepsWith, h1]
    rw [h2]

/-- Under closed, acyclic declarations, resolving any declared path with
enough fuel succeeds, provided every unresolved stack entry reaches the
path in the reference graph (true initially, when the stack is empty). -/
theorem resolve_acyclic_ok (fuel : Nat) :
    ∀ (wd : WorkspaceDeclaration) (path : String) (ws : Workspace)
      (stack : List String),
      ClosedDecls wd → AcyclicDecls wd → WSInv ws → path ∈ declKeys wd →
      declRemaining wd stack + 1 ≤ fuel →
      (∀ x ∈ stack, pathInWs ws x = false → Relation.TransGen (RefEdge wd) x path) →
      ∃ id ws1 stack1,
        add_project_to_workspace fuel wd path ws stack = some (.ok (id, ws1, stack1)) := by
  induction fuel with
  | zero => intro wd path ws stack _ _ _ _ hfuel _; omega
  | succ n ih =>
    intro wd path ws stack hcl hacy hinv hkey hfuel hreach
    cases hearly : ws.get_id_by_path path with
    | some id0 =>
      refine ⟨id0, ws, stack, ?_⟩
      simp only [add_project_to_workspace, hearly]
    | none =>
      by_cases hmem : path ∈ stack
      · exfalso
        have hfa : pathInWs ws path = false := by
          dsimp only [pathInWs]
          rw [hearly]
          rfl
        exact hacy path (hreach path hmem hfa)
      · obtain ⟨decl, hlook⟩ : ∃ decl, lookupDecl wd path = some decl := by
          have := (lookupDecl_isSome_iff wd path).mpr hkey
          rw [Option.isSome_iff_exists] at this
          exact this
        have hlt := declRemaining_push_lt wd stack path hkey hmem
        cases hdeps : decl.dependencies with
        | none =>
          refine ⟨ws.arena.length,
            { arena := ws.arena ++ [⟨path, decl.name, none, [], false⟩],
              hash := hashInsert ws.hash path ws.arena.length },
            stack ++ [path], ?_⟩
          simp only [add_project_to_workspace, hearly]
          rw [if_neg hmem, hlook]
          dsimp only
          rw [hdeps]
          dsimp only
          rw [add_project_none_deps ws ⟨path, decl.name, none, [], false⟩ hearly rfl]
        | some deps =>
          have hdepskeys : ∀ d ∈ deps, d ∈ declKeys wd := by
            intro d hd
            have hmemdecl := declLookup_mem hlook
            exact hcl (path, decl) hmemdecl d (by simp [depsOfDecl, hdeps, hd])
          have hreach1 : ∀ d ∈ deps, ∀ x ∈ stack ++ [path],
              pathInWs ws x = false → Relation.TransGen (RefEdge wd) x d := by
            intro d hd x hx hf
            have hedge : RefEdge wd path d := ⟨decl, hlook, by simp [depsOfDecl, hdeps, hd]⟩
            rcases List.mem_append.mp hx with hx1 | hx1
            · exact Relation.TransGen.tail (hreach x hx1 hf) hedge
            · rw [List.mem_singleton] at hx1
              subst hx1
              exact Relation.TransGen.single hedge
          obtain ⟨ids, wsM, stackM, hres⟩ := resolveDeps_acyclic_ok wd
            (fun d w st => add_project_to_workspace n wd d w st) n
            (fun d w st i w1 st1 hh => resolve_ok_spec n wd d w st i w1 st1 hh)
            (fun d w st hw hk hfl hrc => ih wd d w st hcl hacy hw hk hfl hrc)
            deps ws (stack ++ [path]) hinv hdepskeys (by omega) hreach1
          have D := resolveDepsWith_ok_spec wd _
            (fun d w st i w1 st1 hh => resolve_ok_spec n wd d w st i w1 st1 hh)
            deps ws (stack ++ [path]) ids wsM stackM hres
          obtain ⟨wsA, haddeq⟩ := final_add_ok wd path decl.name deps ws wsM
            stack stackM ids hearly hinv D
          refine ⟨wsM.arena.length, wsA, stackM, ?_⟩
          simp only [add_project_to_workspace, hearly]
          rw [if_neg hmem, hlook]
          dsimp only
          rw [hdeps]
          dsimp only
          rw [hres]
          dsimp only
          rw [haddeq]

/-! ## Build-level lemmas -/

/-- `buildFold` halts at fuel `fuelBound`. -/
theorem buildFold_isSome (wd : WorkspaceDeclaration) :
    ∀ (keysSub : List String) (ws : Workspace),
      (buildFold wd (fuelBound wd) keysSub ws).isSome = true := by
  intro keysSub
  induction keysSub with
  | nil => intro ws; simp [buildFold]
  | cons k rest ih =>
    intro ws
    simp only [buildFold]
    have hcall := resolve_isSome (fuelBound wd) wd k ws []
      (by rw [declRemaining_nil]; exact Nat.le_refl _)
    rw [Option.isSome_iff_exists] at hcall
    obtain ⟨r, hr⟩ := hcall
    rw [hr]
    cases r with
    | error e => simp
    | ok t => obtain ⟨i, ws1, st1⟩ := t; exact ih ws1

/-- `build_workspace` equals the (always-`some`) result of its fold. -/
theorem build_workspace_eq_fold (wd : WorkspaceDeclaration) :
    ∃ rr, buildFold wd (fuelBound wd) (declKeys wd) Workspace.new = some rr ∧
      wd.build_workspace = rr := by
  have h := buildFold_isSome wd (declKeys wd) Workspace.new
  rw [Option.isSome_iff_exists] at h
  obtain ⟨rr, hrr⟩ := h
  exact ⟨rr, hrr, by simp [WorkspaceDeclaration.build_workspace, hrr]⟩

/-- A successful fold preserves the invariant, reference faithfulness and
existing mappings, and resolves every processed key. -/
theorem buildFold_ok_spec (wd : WorkspaceDeclaration) (fuel : Nat) :
    ∀ (keysSub : List String) (ws wsF : Workspace),
      buildFold wd fuel keysSub ws = some (.ok wsF) →
      (WSInv ws → WSInv wsF) ∧
      (WSInv ws → RefFaithful wd ws → RefFaithful wd wsF) ∧
      (∀ (kk : String) (ii : Nat), ws.get_id_by_path kk = some ii →
        wsF.get_id_by_path kk = some ii) ∧
      (∀ k ∈ keysSub, (wsF.get_id_by_path k).isSome = true) ∧
      (∀ x : String, pathInWs wsF x = true → pathInWs ws x = true ∨ x ∈ declKeys wd) := by
  intro keysSub
  induction keysSub with
  | nil =>
    intro ws wsF h
    simp only [buildFold, Option.some.injEq, Except.ok.injEq] at h
    subst h
    exact ⟨fun hi => hi, fun _ hfa => hfa, fun kk ii hk => hk, by simp,
      fun x hx => Or.inl hx⟩
  | cons k rest ih =>
    intro ws wsF h
    simp only [buildFold] at h
    cases hcall : add_project_to_workspace fuel wd k ws [] with
    | none => rw [hcall] at h; exact absurd h (by simp)
    | some r =>
      rw [hcall] at h
      cases r with
      | error e => exact absurd h (by simp)
      | ok t =>
        obtain ⟨i1, ws1, st1⟩ := t
        dsimp only at h
        have R := resolve_ok_spec fuel wd k ws [] i1 ws1 st1 hcall
        obtain ⟨hinv2, hfa2, hmono2, hkeys2, hnew2⟩ := ih ws1 wsF h
        refine ⟨fun hi => hinv2 (R.inv hi),
          fun hi hfa => hfa2 (R.inv hi) (R.faithful hi hfa),
          fun kk ii hk => hmono2 kk ii (R.wsMono kk ii hk), ?_, ?_⟩
        · intro e he
          rcases List.mem_cons.mp he with rfl | he2
          · have := hmono2 e i1 R.pathRes
            rw [this]
            rfl
          · exact hkeys2 e he2
        · intro x hx
          rcases hnew2 x hx with hx1 | hx1
          · rcases R.newPaths x hx1 with hx2 | ⟨-, hx2⟩
            · exact Or.inl hx2
            · exact Or.inr hx2
          · exact Or.inr hx1

/-- A halted fold over declared keys is a success or a cycle report. -/
theorem buildFold_closed_shape (wd : WorkspaceDeclaration) (fuel : Nat)
    (hcl : ClosedDecls wd) :
    ∀ (keysSub : List String) (ws : Workspace)
      (r : Except BuildWorkspaceError Workspace),
      WSInv ws → (∀ k ∈ keysSub, k ∈ declKeys wd) →
      buildFold wd fuel keysSub ws = some r →
      (∃ wsF, r = .ok wsF) ∨
      (∃ l q, r = .error (.CyclicDependencyFound (l ++ [q])) ∧ q ∈ l) := by
  intro keysSub
  induction keysSub with
  | nil =>
    intro ws r hinv hkeys h
    simp only [buildFold, Option.some.injEq] at h
    exact Or.inl ⟨ws, h.symm⟩
  | cons k rest ih =>
    intro ws r hinv hkeys h
    simp only [buildFold] at h
    cases hcall : add_project_to_workspace fuel wd k ws [] with
    | none => rw [hcall] at h; exact absurd h (by simp)
    | some r1 =>
      rw [hcall] at h
      rcases resolve_closed_shape fuel wd k ws [] r1 hcl hinv (hkeys k (by simp))
          hcall with ⟨i1, ws1, st1, hr1⟩ | ⟨l, q, hr1, hql⟩
      · subst hr1
        dsimp only at h
        exact ih ws1 r ((resolve_ok_spec fuel wd k ws [] i1 ws1 st1 hcall).inv hinv)
          (fun e he => hkeys e (by simp [he])) h
      · subst hr1
        dsimp only at h
        injection h with h
        exact Or.inr ⟨l, q, h.symm, hql⟩

/-- Every workspace produced by a successful `build_workspace` satisfies
the structural invariant. -/
theorem build_workspace_WSInv (wd : WorkspaceDeclaration) (ws : Workspace)
    (h : wd.build_workspace = .ok ws) : WSInv ws := by
  obtain ⟨rr, hrr, heq⟩ := build_workspace_eq_fold wd
  rw [heq] at h
  subst h
  exact (buildFold_ok_spec wd (fuelBound wd) (declKeys wd) Workspace.new ws hrr).1
    WSInv_new

/-- C5: after every successful `build_workspace`, the dependents relation
is exactly the transpose of the dependencies relation — `qi` appears in
project `pi`'s dependents iff `pi` appears in project `qi`'s dependencies —
and every id stored in either list denotes an existing project of the same
store. -/
theorem c5_dependents_transpose (wd : WorkspaceDeclaration) (ws : Workspace)
    (h : wd.build_workspace = .ok ws) :
    (∀ (pi qi : Nat) (p q : Project), ws.arena[pi]? = some p →
      ws.arena[qi]? = some q →
      (qi ∈ p.dependents ↔ pi ∈ q.dependencies.getD [])) ∧
    (∀ (i : Nat) (p : Project), ws.arena[i]? = some p →
      (∀ d ∈ p.dependencies.getD [], d < ws.arena.length) ∧
      (∀ d ∈ p.dependents, d < ws.arena.length)) := by
  have hinv := build_workspace_WSInv wd ws h
  constructor
  · intro pi qi p q hp hq
    exact hinv.transpose pi qi p q hp hq
  · intro i p hp
    refine ⟨?_, hinv.dependentsValid i p hp⟩
    intro d hd
    have h1 := hinv.depsLT i p hp d hd
    have h2 := lt_of_getElem?_eq_some hp
    omega

/-- Witness for C5 on the concrete map `wdTwo`, whose build result is the
concrete store `wsTwo`. -/
theorem c5_dependents_transpose_witness :
    (∀ (pi qi : Nat) (p q : Project), wsTwo.arena[pi]? = some p →
      wsTwo.arena[qi]? = some q →
      (qi ∈ p.dependents ↔ pi ∈ q.dependencies.getD [])) ∧
    (∀ (i : Nat) (p : Project), wsTwo.arena[i]? = some p →
      (∀ d ∈ p.dependencies.getD [], d < wsTwo.arena.length) ∧
      (∀ d ∈ p.dependents, d < wsTwo.arena.length)) :=
  c5_dependents_transpose wdTwo wsTwo (by rfl)

/-- Counting argument: with the invariant, if exactly the declared keys
are resolved, the arena holds one project per declared key. -/
theorem arena_length_eq_keys (wd : WorkspaceDeclaration) (ws : Workspace)
    (hinv : WSInv ws) (hnodup : (declKeys wd).Nodup)
    (hall : ∀ k ∈ declKeys wd, (ws.get_id_by_path k).isSome = true)
    (hsub : ∀ x : String, pathInWs ws x = true → x ∈ declKeys wd) :
    ws.arena.length = (declKeys wd).length := by
  have hcardkeys : (declKeys wd).toFinset.card = (declKeys wd).length :=
    List.toFinset_card_of_nodup hnodup
  refine Nat.le_antisymm ?_ ?_
  · -- every slot's path is a distinct declared key
    have hf : ∀ i : Fin ws.arena.length, (ws.arena.get i).path ∈ (declKeys wd).toFinset := by
      intro i
      rw [List.mem_toFinset]
      apply hsub
      dsimp only [pathInWs, Workspace.get_id_by_path]
      rw [hinv.arenaToHash i.val (ws.arena.get i) (List.getElem?_eq_getElem i.isLt)]
      rfl
    have hinj : Function.Injective
        (fun i : Fin ws.arena.length => (⟨(ws.arena.get i).path, hf i⟩ :
          {x // x ∈ (declKeys wd).toFinset})) := by
      intro i j hij
      simp only [Subtype.mk.injEq] at hij
      have hi := hinv.arenaToHash i.val (ws.arena.get i) (List.getElem?_eq_getElem i.isLt)
      have hj := hinv.arenaToHash j.val (ws.arena.get j) (List.getElem?_eq_getElem j.isLt)
      rw [hij] at hi
      rw [hi] at hj
      injection hj with hj
      exact Fin.ext hj
    have hle := Fintype.card_le_of_injective _ hinj
    rw [Fintype.card_fin, Fintype.card_coe, hcardkeys] at hle
    exact hle
  · -- every key resolves to a distinct slot
    have hg : ∀ k : {x // x ∈ (declKeys wd).toFinset},
        ∃ i : Fin ws.arena.length, ws.get_id_by_path k.val = some i.val := by
      intro k
      have hk := hall k.val (List.mem_toFinset.mp k.property)
      rw [Option.isSome_iff_exists] at hk
      obtain ⟨i, hi⟩ := hk
      obtain ⟨p, hp, -⟩ := hinv.hashToArena k.val i hi
      exact ⟨⟨i, lt_of_getElem?_eq_some hp⟩, hi⟩
    choose g hgspec using hg
    have hinj : Function.Injective g := by
      intro k1 k2 h12
      have h1 := hgspec k1
      have h2 := hgspec k2
      rw [h12] at h1
      obtain ⟨p1, hp1, hq1⟩ := hinv.hashToArena k1.val (g k2).val h1
      obtain ⟨p2, hp2, hq2⟩ := hinv.hashToArena k2.val (g k2).val h2
      rw [hp1] at hp2
      injection hp2 with hp2
      rw [hp2] at hq1
      rw [hq1] at hq2
      exact Subtype.ext hq2
    have hle := Fintype.card_le_of_injective g hinj
    rw [Fintype.card_fin, Fintype.card_coe, hcardkeys] at hle
    exact hle

/-- Under closed, acyclic declarations the whole fold succeeds and
resolves every processed key. -/
theorem buildFold_acyclic_ok (wd : WorkspaceDeclaration)
    (hcl : ClosedDecls wd) (hacy : AcyclicDecls wd) :
    ∀ (keysSub : List String) (ws : Workspace),
      WSInv ws → (∀ k ∈ keysSub, k ∈ declKeys wd) →
      ∃ wsF, buildFold wd (fuelBound wd) keysSub ws = some (.ok wsF) := by
  intro keysSub
  induction keysSub with
  | nil => intro ws hinv hkeys; exact ⟨ws, rfl⟩
  | cons k rest ih =>
    intro ws hinv hkeys
    obtain ⟨i1, ws1, st1, hcall⟩ := resolve_acyclic_ok (fuelBound wd) wd k ws []
      hcl hacy hinv (hkeys k (by simp))
      (by rw [declRemaining_nil]; exact Nat.le_refl _)
      (by simp)
    have R := resolve_ok_spec (fuelBound wd) wd k ws [] i1 ws1 st1 hcall
    obtain ⟨wsF, hrest⟩ := ih ws1 (R.inv hinv) (fun e he => hkeys e (by simp [he]))
    refine ⟨wsF, ?_⟩
    simp only [buildFold, hcall]
    exact hrest

/-- C4 counterexample: the one-declaration map `a depends_on b` (with `b`
undeclared) has an acyclic path-reference graph, yet `build_workspace`
fails with `ProjectDeclarationNotFound` — so acyclicity alone does not
guarantee success. -/
theorem c4_counterexample :
    AcyclicDecls wdDangling ∧
    wdDangling.build_workspace = .error (.ProjectDeclarationNotFound "b") := by
  constructor
  · intro x hx
    have hedge : ∀ u v : String, RefEdge wdDangling u v → u = "a" ∧ v = "b" := by
      rintro u v ⟨d, hlook, hmem⟩
      dsimp only [wdDangling, lookupDecl, declLookup] at hlook
      by_cases hu : "a" = u
      · rw [if_pos hu] at hlook
        injection hlook with hlook
        subst hlook
        refine ⟨hu.symm, ?_⟩
        simpa [depsOfDecl] using hmem
      · rw [if_neg hu] at hlook
        exact absurd hlook (by simp)
    have hnotb : ∀ z : String, ¬ Relation.TransGen (RefEdge wdDangling) "b" z := by
      intro z hz
      induction hz with
      | single h => exact absurd (hedge _ _ h).1 (by decide)
      | tail h1 h2 ih => exact ih
    cases hx with
    | single h =>
      obtain ⟨h1, h2⟩ := hedge _ _ h
      subst h1
      exact absurd h2 (by decide)
    | tail h1 h2 =>
      obtain ⟨h3, h4⟩ := hedge _ _ h2
      subst h4
      exact hnotb _ h1
  · rfl

/-- C4 (amended): for every declaration map in which every referenced
dependency path is declared and whose path-reference graph is acyclic,
`build_workspace` succeeds, the store holds exactly one project per
declared path, and every declared path resolves. -/
theorem c4_acyclic_closed_builds (wd : WorkspaceDeclaration)
    (hnodup : (declKeys wd).Nodup) (hcl : ClosedDecls wd) (hacy : AcyclicDecls wd) :
    ∃ ws, wd.build_workspace = .ok ws ∧
      ws.arena.length = wd.projects.length ∧
      ∀ k ∈ declKeys wd, (ws.get_id_by_path k).isSome = true := by
  obtain ⟨wsF, hfold⟩ := buildFold_acyclic_ok wd hcl hacy (declKeys wd)
    Workspace.new WSInv_new (fun k hk => hk)
  obtain ⟨rr, hrr, heq⟩ := build_workspace_eq_fold wd
  rw [hfold] at hrr
  injection hrr with hrr
  subst hrr
  obtain ⟨hinvF, -, -, hkeysF, hnewF⟩ :=
    buildFold_ok_spec wd (fuelBound wd) (declKeys wd) Workspace.new wsF hfold
  have hsub : ∀ x : String, pathInWs wsF x = true → x ∈ declKeys wd := by
    intro x hx
    rcases hnewF x hx with hx1 | hx1
    · dsimp only [pathInWs] at hx1
      rw [get_id_new] at hx1
      exact absurd hx1 (by simp)
    · exact hx1
  have hlen := arena_length_eq_keys wd wsF (hinvF WSInv_new) hnodup hkeysF hsub
  refine ⟨wsF, heq, ?_, hkeysF⟩
  rw [hlen]
  simp [declKeys]

/-- Witness for C4 (amended) on the concrete two-declaration map `wdTwo`. -/
theorem c4_acyclic_closed_builds_witness :
    ∃ ws, wdTwo.build_workspace = .ok ws ∧
      ws.arena.length = wdTwo.projects.length ∧
      ∀ k ∈ declKeys wdTwo, (ws.get_id_by_path k).isSome = true :=
  c4_acyclic_closed_builds wdTwo (by decide)
    (by unfold ClosedDecls; decide)
    (by
      intro x hx
      have hedge : ∀ u v : String, RefEdge wdTwo u v → u = "b" ∧ v = "a" := by
        rintro u v ⟨d, hlook, hmem⟩
        dsimp only [wdTwo, lookupDecl, declLookup] at hlook
        by_cases hu : "a" = u
        · rw [if_pos hu] at hlook
          injection hlook with hlook
          subst hlook
          exact absurd hmem (by simp [depsOfDecl])
        · rw [if_neg hu] at hlook
          by_cases hb : "b" = u
          · rw [if_pos hb] at hlook
            injection hlook with hlook
            subst hlook
            refine ⟨hb.symm, ?_⟩
            simpa [depsOfDecl] using hmem
          · rw [if_neg hb] at hlook
            exact absurd hlook (by simp)
      have hnota : ∀ z : String, ¬ Relation.TransGen (RefEdge wdTwo) "a" z := by
        intro z hz
        induction hz with
        | single h => exact absurd (hedge _ _ h).1 (by decide)
        | tail h1 h2 ih => exact ih
      cases hx with
      | single h =>
        obtain ⟨h1, h2⟩ := hedge _ _ h
        subst h1
        exact absurd h2 (by decide)
      | tail h1 h2 =>
        obtain ⟨h3, h4⟩ := hedge _ _ h2
        subst h4
        exact hnota _ h1)

/-- The source of any reference path is a declared key. -/
theorem transGen_source_mem (wd : WorkspaceDeclaration) {a b : String}
    (h : Relation.TransGen (RefEdge wd) a b) : a ∈ declKeys wd := by
  induction h with
  | single h1 =>
    obtain ⟨d, hlook, -⟩ := h1
    rw [← lookupDecl_isSome_iff, hlook]
    rfl
  | tail h1 h2 ih => exact ih

/-- In a reference-faithful store where every declared key is resolved,
ids strictly decrease along reference paths. -/
theorem map_lt_along_refpath (wd : WorkspaceDeclaration) (ws : Workspace)
    (hfa : RefFaithful wd ws)
    (hall : ∀ k ∈ declKeys wd, (ws.get_id_by_path k).isSome = true) :
    ∀ (a b : String), Relation.TransGen (RefEdge wd) a b →
      ∀ (ia ib : Nat), ws.get_id_by_path a = some ia →
        ws.get_id_by_path b = some ib → ib < ia := by
  intro a b h
  induction h with
  | single h1 =>
    intro ia ib hia hib
    obtain ⟨d, hlook, hmem⟩ := h1
    obtain ⟨iy, hiy, hlt⟩ := hfa a ia d hia hlook _ hmem
    rw [hiy] at hib
    injection hib with hib
    omega
  | tail h1 h2 ih =>
    rename_i c b1
    intro ia ib hia hib
    have hckey : c ∈ declKeys wd := by
      obtain ⟨d, hlook, -⟩ := h2
      rw [← lookupDecl_isSome_iff, hlook]
      rfl
    have hc := hall c hckey
    rw [Option.isSome_iff_exists] at hc
    obtain ⟨ic, hic⟩ := hc
    have hlt1 := ih ia ic hia hic
    obtain ⟨d, hlook, hmem⟩ := h2
    obtain ⟨iy, hiy, hlt2⟩ := hfa c ic d hic hlook _ hmem
    rw [hiy] at hib
    injection hib with hib
    omega

/-- C3 counterexample: the map `{a depends_on m, c depends_on c}` contains
a cyclic chain (`c → c`), yet `build_workspace` fails with
`ProjectDeclarationNotFound "m"` — the undeclared reference reached first
preempts cycle detection, so a cyclic map does not always fail with
`CyclicDependencyFound`. -/
theorem c3_counterexample :
    Relation.TransGen (RefEdge wdPre) "c" "c" ∧
    wdPre.build_workspace = .error (.ProjectDeclarationNotFound "m") := by
  constructor
  · exact Relation.TransGen.single ⟨⟨"C", some ["c"]⟩, by decide, by decide⟩
  · rfl

/-- C3 (amended): for every declaration map in which every referenced
dependency path is declared and whose path-reference graph has a cycle,
`build_workspace` fails with `CyclicDependencyFound`; the witness is the
resolution stack at detection time with the repeated path appended once
more, in root-to-repeat order — the repeated path occurs earlier in the
witness.  (Because the source never pops the stack, completed side-branch
paths may also appear in the witness, so it need not start and end at the
same path; the workspace, with any ids issued for those side branches, is
discarded on failure.) -/
theorem c3_closed_cyclic_fails (wd : WorkspaceDeclaration)
    (hcl : ClosedDecls wd)
    (hcyc : ∃ x, Relation.TransGen (RefEdge wd) x x) :
    ∃ l q, wd.build_workspace = .error (.CyclicDependencyFound (l ++ [q])) ∧
      q ∈ l := by
  obtain ⟨rr, hrr, heq⟩ := build_workspace_eq_fold wd
  rcases buildFold_closed_shape wd (fuelBound wd) hcl (declKeys wd) Workspace.new
      rr WSInv_new (fun k hk => hk) hrr with ⟨wsF, hok⟩ | ⟨l, q, herr, hql⟩
  · exfalso
    subst hok
    obtain ⟨-, hfa, -, hall, -⟩ :=
      buildFold_ok_spec wd (fuelBound wd) (declKeys wd) Workspace.new wsF hrr
    have hfaF : RefFaithful wd wsF := hfa WSInv_new (RefFaithful_new wd)
    obtain ⟨x, hx⟩ := hcyc
    have hxkey : x ∈ declKeys wd := transGen_source_mem wd hx
    have hxsome := hall x hxkey
    rw [Option.isSome_iff_exists] at hxsome
    obtain ⟨ix, hix⟩ := hxsome
    exact absurd (map_lt_along_refpath wd wsF hfaF hall x x hx ix ix hix hix)
      (by omega)
  · subst herr
    exact ⟨l, q, heq, hql⟩

/-- Witness for C3 (amended) on the concrete mutual cycle `wdCyc`. -/
theorem c3_closed_cyclic_fails_witness :
    ∃ l q, wdCyc.build_workspace = .error (.CyclicDependencyFound (l ++ [q])) ∧
      q ∈ l :=
  c3_closed_cyclic_fails wdCyc
    (by unfold ClosedDecls; decide)
    ⟨"core", Relation.TransGen.tail
      (Relation.TransGen.single
        (show RefEdge wdCyc "core" "dependent" from
          ⟨⟨"core", some ["dependent"]⟩, by decide, by decide⟩))
      (show RefEdge wdCyc "dependent" "core" from
        ⟨⟨"dependent", some ["core"]⟩, by decide, by decide⟩)⟩

end Parmenides
